import Mathlib

/-!
Verification of the diff/revert core (src/Diff.js) of mongoose-dp.

The JavaScript value universe is embedded as the inductive type `V`:
plain trees of scalars, arrays and objects.  Objects are association
lists in key-enumeration order, mirroring how JavaScript enumerates own
keys.  NaN is a separate constructor because it is the one number that
is not strictly equal to itself.  A regular expression is carried as its
canonical source string, since the engine compares regexps through
their string form.

The external helpers imported from utils.js (realTypeOf,
getOrderIndependentHash, revertArrayChange) are not part of src/; they
are modelled from the spec where marked.

Change records: the engine emits raw records with short field names
(k, p, l, r, i, it) and the revert engine consumes records with long
field names (kind, path, lhs, index, item); the adapter between the two
shapes lives outside src/.  Following the single Change Record model of
the spec, one record type `Change` with the long field names is used on
both sides; the kind letters N, D, E, A are exactly the tags the source
uses.
-/

inductive V where
  | undef
  | null
  | boolV (b : Bool)
  | num (n : Int)
  | nan
  | str (s : String)
  | date (ms : Int)
  | regexp (src : String)
  | arr (xs : List V)
  | obj (fs : List (String × V))
deriving Repr

mutual
def beqV : V → V → Bool
  | .undef, .undef => true
  | .null, .null => true
  | .boolV a, .boolV b => a == b
  | .num a, .num b => a == b
  | .nan, .nan => true
  | .str a, .str b => a == b
  | .date a, .date b => a == b
  | .regexp a, .regexp b => a == b
  | .arr xs, .arr ys => beqL xs ys
  | .obj fs, .obj gs => beqF fs gs
  | _, _ => false

def beqL : List V → List V → Bool
  | [], [] => true
  | x :: xs, y :: ys => beqV x y && beqL xs ys
  | _, _ => false

def beqF : List (String × V) → List (String × V) → Bool
  | [], [] => true
  | (k, v) :: fs, (k2, w) :: gs => k == k2 && beqV v w && beqF fs gs
  | _, _ => false
end

mutual
theorem beqV_iff : ∀ a b : V, beqV a b = true ↔ a = b
  | a, b => by
    cases a <;> cases b <;> simp [beqV]
    case arr.arr xs ys => exact beqL_iff xs ys
    case obj.obj fs gs => exact beqF_iff fs gs

theorem beqL_iff : ∀ xs ys : List V, beqL xs ys = true ↔ xs = ys
  | xs, ys => by
    cases xs <;> cases ys <;> simp [beqL]
    case cons.cons x xs y ys =>
      rw [beqV_iff x y, beqL_iff xs ys]

theorem beqF_iff : ∀ fs gs : List (String × V), beqF fs gs = true ↔ fs = gs
  | fs, gs => by
    cases fs <;> cases gs <;> simp [beqF]
    case cons.cons f fs g gs =>
      obtain ⟨k, v⟩ := f
      obtain ⟨k2, w⟩ := g
      rw [beqV_iff v w, beqF_iff fs gs]
      simp [Prod.ext_iff, and_assoc]
end

instance : DecidableEq V := fun a b =>
  decidable_of_iff (beqV a b = true) (beqV_iff a b)

/- Structural size of a value, used as fuel bound and induction measure. -/
mutual
def sizeV : V → Nat
  | .arr xs => 1 + sizeL xs
  | .obj fs => 1 + sizeF fs
  | _ => 1

def sizeL : List V → Nat
  | [] => 0
  | x :: xs => 1 + sizeV x + sizeL xs

def sizeF : List (String × V) → Nat
  | [] => 0
  | (_, v) :: fs => 1 + sizeV v + sizeF fs
end

/-- JavaScript truthiness of a value. -/
def jsTruthy : V → Bool
  | .undef => false
  | .null => false
  | .boolV b => b
  | .num n => decide (n ≠ 0)
  | .nan => false
  | .str s => decide (s ≠ "")
  | .date _ => true
  | .regexp _ => true
  | .arr _ => true
  | .obj _ => true

/-- JavaScript typeof operator on the embedded values. -/
def jsTypeof : V → String
  | .undef => "undefined"
  | .null => "object"
  | .boolV _ => "boolean"
  | .num _ => "number"
  | .nan => "number"
  | .str _ => "string"
  | .date _ => "object"
  | .regexp _ => "object"
  | .arr _ => "object"
  | .obj _ => "object"

/-- Modelled from the spec: the external Type Classifier realTypeOf of
utils.js (not under src/); per the spec it returns a canonical type tag
such as "array", "object", "date", "regexp", "number", "null",
"undefined", "nan". -/
def realTypeOf : V → String
  | .undef => "undefined"
  | .null => "null"
  | .boolV _ => "boolean"
  | .num _ => "number"
  | .nan => "nan"
  | .str _ => "string"
  | .date _ => "date"
  | .regexp _ => "regexp"
  | .arr _ => "array"
  | .obj _ => "object"

/-- Number.isNaN on the embedded values. -/
def isNaNV : V → Bool
  | .nan => true
  | _ => false

/-- JavaScript strict equality.  On primitives this is value equality
except that NaN is not equal to anything, itself included.  On objects
JavaScript compares references; in this tree embedding two object
values are identified when they are structurally equal, which is sound
for every comparison the acyclic engine actually performs (reference
equality implies structural equality, and the engine only ever compares
a node against its strict ancestors, which can never be structurally
equal to it). -/
def jsStrictEq (a b : V) : Bool :=
  decide (a = b) && !(isNaNV a)

/-- Parses a digit list as a decimal number, none on a non-digit. -/
def parseNatAux : List Char → Nat → Option Nat
  | [], acc => some acc
  | c :: cs, acc => if c.isDigit then parseNatAux cs (10 * acc + (c.toNat - 48)) else none

/-- Canonical array-index strings: the strings JavaScript treats as
array indices when used as property keys ("0", "1", ..., with no
leading zeros). -/
def toIdx (s : String) : Option Nat :=
  match s.data with
  | [] => none
  | _ =>
    match parseNatAux s.data 0 with
    | some n => if Nat.repr n = s then some n else none
    | none => none

/-- First-match lookup in an object field list (JavaScript object keys
are unique, so first match is the match). -/
def lookupF : List (String × V) → String → Option V
  | [], _ => none
  | (k2, w) :: fs, k => if k2 = k then some w else lookupF fs k

/-- Object.keys on the values the object branch of the engine can
reach: own enumerable keys of a plain object; a Date has none. -/
def keysOf : V → List String
  | .obj fs => fs.map Prod.fst
  | _ => []

/-- Object.getOwnPropertyDescriptor(v, k) converted to a presence test:
own field of an object, index or length of an array or string. -/
def hasOwnProp : V → String → Bool
  | .obj fs, k => (lookupF fs k).isSome
  | .arr xs, k =>
    (match toIdx k with
     | some i => decide (i < xs.length)
     | none => false) || decide (k = "length")
  | .str s, k =>
    (match toIdx k with
     | some i => decide (i < s.length)
     | none => false) || decide (k = "length")
  | _, _ => false

/-- JavaScript property read v[k] (undefined when absent). -/
def jsGet : V → String → V
  | .obj fs, k => (lookupF fs k).getD V.undef
  | .arr xs, k =>
    if k = "length" then V.num xs.length
    else
      match toIdx k with
      | some i => xs.getD i V.undef
      | none => V.undef
  | _, _ => V.undef

/-- Replace the first binding of a key, or append a new binding at the
end, exactly as JavaScript property assignment preserves key order and
adds new keys last. -/
def setField : List (String × V) → String → V → List (String × V)
  | [], k, v => [(k, v)]
  | (k2, w) :: fs, k, v => if k2 = k then (k2, v) :: fs else (k2, w) :: setField fs k v

/-- Array element write arr[i] = v; writing past the end fills the gap
with undefined holes as JavaScript does. -/
def setAt (xs : List V) (i : Nat) (v : V) : List V :=
  if i < xs.length then xs.set i v
  else xs ++ List.replicate (i - xs.length) V.undef ++ [v]

/-- JavaScript property write v[k] = x on targets where the write
succeeds: objects and arrays.  The source file is an ES module and runs
in strict mode, where a write on a primitive target throws a TypeError
instead of being discarded; that throwing path is modelled by jsSetE
below, while jsSet keeps a primitive target unchanged so it can stay
total where a theorem has already established the target is an
object. -/
def jsSet : V → String → V → V
  | .obj fs, k, x => V.obj (setField fs k x)
  | .arr xs, k, x =>
    (match toIdx k with
     | some i => V.arr (setAt xs i x)
     | none => V.arr xs)
  | v, _, _ => v

/-- Remove the first binding of a key. -/
def removeField : List (String × V) → String → List (String × V)
  | [], _ => []
  | (k2, w) :: fs, k => if k2 = k then fs else (k2, w) :: removeField fs k

/-- JavaScript delete v[k]: removes an object key; on an array it
leaves an undefined hole without shortening; ignored on primitives. -/
def jsDelete : V → String → V
  | .obj fs, k => V.obj (removeField fs k)
  | .arr xs, k =>
    (match toIdx k with
     | some i => if i < xs.length then V.arr (xs.set i V.undef) else V.arr xs
     | none => V.arr xs)
  | v, _ => v

/-- Strict-mode property write v[k] = x: the source file is an ES
module, so a write on a primitive, null or undefined target throws a
TypeError, modelled as none.  Writes on objects and arrays succeed as
jsSet; a Date or RegExp object accepts an expando write, which the
model (carrying no expandos, like jsSet) drops. -/
def jsSetE : V → String → V → Option V
  | V.obj fs, k, x => some (jsSet (V.obj fs) k x)
  | V.arr xs, k, x => some (jsSet (V.arr xs) k x)
  | V.date ms, _, _ => some (V.date ms)
  | V.regexp s, _, _ => some (V.regexp s)
  | _, _, _ => none

/-- Strict-mode delete v[k]: on null or undefined the property access
throws a TypeError; deleting a non-configurable own property (an
in-range index or the length of a string, the length of an array)
throws; the remaining cases behave as jsDelete. -/
def jsDeleteE : V → String → Option V
  | V.undef, _ => none
  | V.null, _ => none
  | V.str s, k => if hasOwnProp (V.str s) k then none else some (V.str s)
  | V.arr xs, k => if k = "length" then none else some (jsDelete (V.arr xs) k)
  | v, k => some (jsDelete v k)

/-- Both-regexp normalization of the engine: lhs = lhs.toString();
the embedded regexp already carries its canonical string form. -/
def regexpToString : V → V
  | .regexp s => V.str s
  | v => v

/-- One comparison-stack entry, named as the source StackT. -/
structure StackT where
  lhs : V
  rhs : V
deriving DecidableEq, Repr

/-- Item nested inside an array change record (the source field it):
a raw New or Deleted record without a path. -/
structure ChangeItem where
  kind : String
  lhs : Option V
  rhs : Option V
deriving DecidableEq, Repr

/-- A change record.  The engine emits these with short raw keys
(k, p, l, r, i, it); the revert engine reads the same data under the
long names used here (kind, path, lhs, rhs, index, item). -/
structure Change where
  kind : String
  path : List String
  lhs : Option V
  rhs : Option V
  index : Option Nat
  item : Option ChangeItem
deriving DecidableEq, Repr

def nRec (p : List String) (r : V) : Change := Change.mk "N" p none (some r) none none

def dRec (p : List String) (l : V) : Change := Change.mk "D" p (some l) none none none

def eRec (p : List String) (l r : V) : Change := Change.mk "E" p (some l) (some r) none none

def aNewRec (p : List String) (i : Nat) (r : V) : Change :=
  Change.mk "A" p none none (some i) (some (ChangeItem.mk "N" none (some r)))

def aDelRec (p : List String) (i : Nat) (l : V) : Change :=
  Change.mk "A" p none none (some i) (some (ChangeItem.mk "D" (some l) none))

/-- Engine options (DeepDiffOptsT without the per-call key/path/stack,
which are threaded as explicit arguments).  prefilter is optional as in
the source (the engine guards with prefilter and prefilter(...)).
hash stands for the external getOrderIndependentHash of utils.js (not
under src/), a deterministic numeric sort key; it is only consulted
when orderIndependent is set. -/
structure Opts where
  prefilter : Option (List String → String → Bool)
  orderIndependent : Bool
  hash : V → Int

def defaultOpts : Opts := Opts.mk none false (fun _ => 0)

/-- Stable ascending insertion of one element by hash key, modelling
one step of Array.prototype.sort with the comparator
(a, b) => hash(a) - hash(b); stable sort keeps equal keys in input
order, which insertion after equal keys reproduces. -/
def insertByHash (h : V → Int) (x : V) : List V → List V
  | [] => [x]
  | y :: ys => if h x < h y then x :: y :: ys else y :: insertByHash h x ys

def sortByHash (h : V → Int) (xs : List V) : List V :=
  xs.foldl (fun acc x => insertByHash h x acc) []

/-- Descending index list: downTo n m = [n-1, n-2, ..., m], empty when
n ≤ m.  These are the indices the two tail while-loops of the array
branch walk. -/
def downTo : Nat → Nat → List Nat
  | 0, _ => []
  | n + 1, m => if n + 1 ≤ m then [] else n :: downTo n m

/-- Tail-insertion records of the array branch: while i > j push an
ArrayChange at i wrapping New of rhs[i], i descending. -/
def arrTailNew (p : List String) (ys : List V) (m : Nat) : List Change :=
  (downTo ys.length m).map (fun i => aNewRec p i (ys.getD i V.undef))

/-- Tail-deletion records of the array branch: while j > i push an
ArrayChange at j wrapping Deleted of lhs[j], j descending. -/
def arrTailDel (p : List String) (xs : List V) (n : Nat) : List Change :=
  (downTo xs.length n).map (fun j => aDelRec p j (xs.getD j V.undef))

/-- Truthiness of the recursion key: present and non-empty (the
engine's if (key) test). -/
def keyTruthyOf (key : Option String) : Bool :=
  match key with
  | some k => decide (k ≠ "")
  | none => false

/-- The prefilter consultation (prefilter and prefilter(currentPath, key)). -/
def prefilterHitOf (opts : Opts) (path : List String) (key : Option String) : Bool :=
  match opts.prefilter with
  | some pf => pf path (key.getD "")
  | none => false

/-- The current path after the conditional key push. -/
def currentPathOf (path : List String) (key : Option String) : List String :=
  if keyTruthyOf key then path ++ [key.getD ""] else path

/-- Left member of the top comparison-stack frame (undefined when the
stack is empty; the branch guards on non-emptiness first). -/
def lastLhs (stack : List StackT) : V :=
  match stack.getLast? with
  | some f => f.lhs
  | none => V.undef

/-- Right member of the top comparison-stack frame. -/
def lastRhs (stack : List StackT) : V :=
  match stack.getLast? with
  | some f => f.rhs
  | none => V.undef

/-- The ldefined / rdefined presence test of the engine: truthy, or
recoverable from the top comparison-stack frame side by an own-property
check at the current key.  When no key was passed, JavaScript would
look up the property name "undefined". -/
def definedCheck (v : V) (side : V) (stack : List StackT) (key : Option String) : Bool :=
  jsTruthy v ||
    (!stack.isEmpty && jsTruthy side && hasOwnProp side (key.getD "undefined"))

/-- The cycle scan: some frame of the comparison stack holds a
left-hand member strictly-equal to the current left value. -/
def cycleHit (stack : List StackT) (lhs : V) : Bool :=
  stack.any (fun f => jsStrictEq f.lhs lhs)

/-- The left-keys pass of the plain-object branch: for each left key,
look it up in the (mutable, null-marked) right key list; when found,
recurse on both sides and null out the consumed entry; when absent,
recurse against null, which emits the Deleted record.  rec is the
engine recursion at one less fuel. -/
def objLoop1 (rec : V → V → Option String → Option (List Change)) (lo ro : V) :
    List String → List (Option String) → Option (List Change × List (Option String))
  | [], marked => some ([], marked)
  | k :: ks, marked =>
    match marked.findIdx? (· == some k) with
    | some i =>
      match rec (jsGet lo k) (jsGet ro k) (some k) with
      | none => none
      | some cs =>
        match objLoop1 rec lo ro ks (marked.set i none) with
        | none => none
        | some (cs2, m2) => some (cs ++ cs2, m2)
    | none =>
      match rec (jsGet lo k) V.null (some k) with
      | none => none
      | some cs =>
        match objLoop1 rec lo ro ks marked with
        | none => none
        | some (cs2, m2) => some (cs ++ cs2, m2)

/-- The remaining-right-keys pass of the plain-object branch: entries
nulled by consumption and falsy keys (the empty string) are skipped by
the truthiness test if (rhsKey); the rest recurse against null on the
left, emitting New records. -/
def objLoop2 (rec : V → V → Option String → Option (List Change)) (ro : V) :
    List (Option String) → Option (List Change)
  | [] => some []
  | m :: ms =>
    match m with
    | some k =>
      if k ≠ "" then
        match rec V.null (jsGet ro k) (some k) with
        | none => none
        | some cs =>
          match objLoop2 rec ro ms with
          | none => none
          | some cs2 => some (cs ++ cs2)
      else objLoop2 rec ro ms
    | none => objLoop2 rec ro ms

/-- The common-index pass of the array branch: while i >= 0 recurse on
lhs[i] vs rhs[i] under key i.toString(), i descending from
min(len lhs, len rhs) - 1. -/
def arrCommon (rec : V → V → Option String → Option (List Change)) (xs ys : List V) :
    Nat → Option (List Change)
  | 0 => some []
  | k + 1 =>
    match rec (xs.getD k V.undef) (ys.getD k V.undef) (some (Nat.repr k)) with
    | none => none
    | some cs =>
      match arrCommon rec xs ys k with
      | none => none
      | some cs2 => some (cs ++ cs2)

/-- The recursive comparison engine deepDiff of src/Diff.js, embedded
with explicit fuel (none signals fuel exhaustion; the JavaScript
recursion has no bound, and diffFuel below always suffices).  Instead
of mutating a shared changes array, the embedding returns the records
it would push, in push order; instead of push/pop on a shared stack,
the extended stack is passed down. -/
def deepDiff : Nat → V → V → Opts → List String → Option String → List StackT → Option (List Change)
  | 0, _, _, _, _, _, _ => none
  | fuel + 1, lhs0, rhs0, opts, path, key, stack =>
    if keyTruthyOf key && prefilterHitOf opts path key then some []
    else
      let currentPath : List String := currentPathOf path key
      let bothRegexp : Bool := decide (realTypeOf lhs0 = "regexp") && decide (realTypeOf rhs0 = "regexp")
      let lhs := if bothRegexp then regexpToString lhs0 else lhs0
      let rhs := if bothRegexp then regexpToString rhs0 else rhs0
      let ldefined : Bool := definedCheck lhs (lastLhs stack) stack key
      let rdefined : Bool := definedCheck rhs (lastRhs stack) stack key
      if !ldefined && rdefined then some [nRec currentPath rhs]
      else if !rdefined && ldefined then some [dRec currentPath lhs]
      else if realTypeOf lhs ≠ realTypeOf rhs then some [eRec currentPath lhs rhs]
      else if realTypeOf lhs = "date" &&
          (match lhs, rhs with | V.date a, V.date b => decide (a ≠ b) | _, _ => false) then
        some [eRec currentPath lhs rhs]
      else if jsTruthy lhs && jsTruthy rhs && decide (jsTypeof lhs = "object") then
        if cycleHit stack lhs then
          if !(jsStrictEq lhs rhs) then some [eRec currentPath lhs rhs] else some []
        else
          let stack2 := stack ++ [StackT.mk lhs rhs]
          match lhs, rhs with
          | V.arr xsRaw, V.arr ysRaw =>
            let xs := if opts.orderIndependent then sortByHash opts.hash xsRaw else xsRaw
            let ys := if opts.orderIndependent then sortByHash opts.hash ysRaw else ysRaw
            let tailChanges := arrTailNew currentPath ys xs.length ++ arrTailDel currentPath xs ys.length
            match arrCommon (fun l r key2 => deepDiff fuel l r opts currentPath key2 stack2)
                xs ys (min xs.length ys.length) with
            | none => none
            | some cs => some (tailChanges ++ cs)
          | lhsV, rhsV =>
            let lhsKeys := keysOf lhsV
            let rhsKeysM : List (Option String) := (keysOf rhsV).map some
            match objLoop1 (fun l r key2 => deepDiff fuel l r opts currentPath key2 stack2)
                lhsV rhsV lhsKeys rhsKeysM with
            | none => none
            | some (cs1, marked) =>
              match objLoop2 (fun l r key2 => deepDiff fuel l r opts currentPath key2 stack2)
                  rhsV marked with
              | none => none
              | some cs2 => some (cs1 ++ cs2)
      else if !(jsStrictEq lhs rhs) then
        if !(decide (jsTypeof lhs = "number") && isNaNV lhs && isNaNV rhs) then
          some [eRec currentPath lhs rhs]
        else some []
      else some []

/-- Fuel that always suffices: the recursion strictly decreases the
summed structural size of the two compared values. -/
def diffFuel (lhs rhs : V) : Nat := sizeV lhs + sizeV rhs + 1

/-- Top-level diff entry point: fresh path, no key, empty stack. -/
def diffRun (lhs rhs : V) (opts : Opts) : Option (List Change) :=
  deepDiff (diffFuel lhs rhs) lhs rhs opts [] none []

/-- Modelled from the spec: the external Array Revert Helper
revertArrayChange of utils.js (not under src/): given an array, an
index and an encoded array-change item, undoes that change on the
array: undoing a wrapped New removes the element at the index, undoing
a wrapped Deleted or Edited restores the stored left value at the
index.  On a non-array value it leaves the value unchanged. -/
def revertArrayChange (a : V) (index : Nat) (item : ChangeItem) : V :=
  match a with
  | V.arr xs =>
    match item.kind with
    | "N" => V.arr (xs.eraseIdx index)
    | "D" => V.arr (setAt xs index (item.lhs.getD V.undef))
    | "E" => V.arr (setAt xs index (item.lhs.getD V.undef))
    | _ => V.arr xs
  | v => v

/-- The switch at the final path segment of revertChange. -/
def applyAtKey (t : V) (k : String) (c : Change) : V :=
  match c.kind with
  | "A" =>
    (match c.item with
     | some it => jsSet t k (revertArrayChange (jsGet t k) (c.index.getD 0) it)
     | none => t)
  | "D" => jsSet t k (c.lhs.getD V.undef)
  | "E" => jsSet t k (c.lhs.getD V.undef)
  | "N" => jsDelete t k
  | _ => t

/-- The path walk of revertChange: follow all but the last segment,
auto-vivifying a fresh empty object at a segment whose current value is
undefined, then apply the kind switch at the last segment.  An empty
path leaves the JavaScript loop variable i undefined, so the final
indexing happens at the property named "undefined". -/
def revertAt (t : V) : List String → Change → V
  | [], c => applyAtKey t "undefined" c
  | [k], c => applyAtKey t k c
  | k :: k2 :: rest, c =>
    jsSet t k (revertAt (match jsGet t k with | V.undef => V.obj [] | w => w) (k2 :: rest) c)

/-- The revert engine revertChange of src/Diff.js.  The guard
if (target and change?.kind) is the truthiness of the target and of the
kind string (a missing or kindless record is modelled by an empty kind). -/
def revertChange (target : V) (change : Change) : V :=
  if jsTruthy target && decide (change.kind ≠ "") then revertAt target change.path change
  else target

/-- Applies revertChange for every record of the list in reverse
emission order (last emitted first) against the target. -/
def revertList (cs : List Change) (target : V) : V :=
  cs.foldr (fun c acc => revertChange acc c) target

/-- The kind switch of revertChange in strict mode: each write goes
through jsSetE and each delete through jsDeleteE, so a primitive
holder at the final path segment throws (none) instead of discarding
the write. -/
def applyAtKeyE (t : V) (k : String) (c : Change) : Option V :=
  match c.kind with
  | "A" =>
    (match c.item with
     | some it => jsSetE t k (revertArrayChange (jsGet t k) (c.index.getD 0) it)
     | none => some t)
  | "D" => jsSetE t k (c.lhs.getD V.undef)
  | "E" => jsSetE t k (c.lhs.getD V.undef)
  | "N" => jsDeleteE t k
  | _ => some t

/-- The path walk of revertChange in strict mode: auto-vivification of
an empty object at a missing intermediate segment is itself a property
write and throws on a primitive holder, as does the final write. -/
def revertAtE (t : V) : List String → Change → Option V
  | [], c => applyAtKeyE t "undefined" c
  | [k], c => applyAtKeyE t k c
  | k :: k2 :: rest, c =>
    match jsGet t k with
    | V.undef =>
      (match jsSetE t k (V.obj []) with
       | none => none
       | some t2 =>
         match revertAtE (V.obj []) (k2 :: rest) c with
         | none => none
         | some child2 => jsSetE t2 k child2)
    | w =>
      (match revertAtE w (k2 :: rest) c with
       | none => none
       | some child2 => jsSetE t k child2)

/-- The revert engine as the strict-mode ES module actually runs it:
none models a TypeError escaping revertChange. -/
def revertChangeE (target : V) (change : Change) : Option V :=
  if jsTruthy target && decide (change.kind ≠ "") then revertAtE target change.path change
  else some target

/-- Applies revertChangeE for every record in reverse emission order;
a thrown TypeError aborts the whole sequence. -/
def revertListE (cs : List Change) (target : V) : Option V :=
  cs.foldr (fun c acc => match acc with | none => none | some t => revertChangeE t c)
    (some target)

/-- The observer wrapper observableDiff of src/Diff.js: run the engine
to completion, then, when an observer is supplied, call it once per
collected record in emission order (the forEach over the finished
list); return the collected records.  The observer is embedded as a
state transformer so that the sequence of calls is observable. -/
def observableDiff {S : Type} (lhs rhs : V) (observer : Option (Change → S → S)) (s0 : S)
    (prefilter : Option (List String → String → Bool)) (orderIndependent : Bool) (hash : V → Int) :
    Option (List Change × S) :=
  match diffRun lhs rhs (Opts.mk prefilter orderIndependent hash) with
  | none => none
  | some changes =>
    match observer with
    | some f => some (changes, changes.foldl (fun s c => f c s) s0)
    | none => some (changes, s0)

/-- The caller-supplied sink of findDiff: an object that may or may not
expose a push capability; items records everything pushed so far. -/
structure Sink where
  hasPush : Bool
  items : List Change
deriving DecidableEq, Repr

/-- The observer findDiff builds over a supplied sink: each emitted
record (records are objects, hence always truthy) first checks the push
capability, throwing the invalid-sink error if absent, then appends. -/
def sinkObserver (c : Change) (st : Except String Sink) : Except String Sink :=
  match st with
  | .error e => .error e
  | .ok s =>
    if !s.hasPush then .error "accum should have a push() function"
    else .ok (Sink.mk s.hasPush (s.items ++ [c]))

/-- The collector entry point findDiff of src/Diff.js: with a sink,
wrap it in the throwing observer and return the sink (accum ||
changes); the thrown error propagates.  Without a sink, return the
fresh record list. -/
def findDiff (lhs rhs : V) (orderIndependent : Bool)
    (prefilter : Option (List String → String → Bool)) (hash : V → Int) (accum : Option Sink) :
    Option (Except String (List Change ⊕ Sink)) :=
  match accum with
  | some s =>
    match observableDiff lhs rhs (some sinkObserver) (Except.ok s) prefilter orderIndependent hash with
    | none => none
    | some (_, st) => some (st.map Sum.inr)
  | none =>
    match observableDiff (S := Except String Sink) lhs rhs none (Except.ok (Sink.mk true []))
        prefilter orderIndependent hash with
    | none => none
    | some (cs, _) => some (Except.ok (Sum.inl cs))

/-!
Reference-aware model for cyclic structures.  The tree type V cannot
represent the self-referential objects of claim C8, and strict equality
on objects is reference equality in JavaScript, so the cycle check is
settled over a heap model: a value is a scalar or a reference into a
list of object cells, and strict equality of references is address
equality, which is exactly JavaScript === on objects.  deepDiffH
mirrors deepDiff branch for branch on the fragment the heap carries
(scalars and plain-object cells: no arrays, dates or regexps, so the
array, date and regexp branches of the source are trivially not taken,
and no prefilter or orderIndependent handling is exercised by the
defaulted options of the claim).
-/

inductive HV where
  | undef
  | null
  | num (n : Int)
  | str (s : String)
  | ref (a : Nat)
deriving DecidableEq, Repr

def hTruthy : HV → Bool
  | .undef => false
  | .null => false
  | .num n => decide (n ≠ 0)
  | .str s => decide (s ≠ "")
  | .ref _ => true

def hTypeof : HV → String
  | .undef => "undefined"
  | .null => "object"
  | .num _ => "number"
  | .str _ => "string"
  | .ref _ => "object"

/-- Modelled from the spec: realTypeOf over the heap fragment; every
cell is a plain object. -/
def realTypeOfH : HV → String
  | .undef => "undefined"
  | .null => "null"
  | .num _ => "number"
  | .str _ => "string"
  | .ref _ => "object"

/-- JavaScript strict equality on heap values: reference equality on
objects (equal addresses), value equality on primitives. -/
def hStrictEq (a b : HV) : Bool := a == b

/-- A heap: object cells addressed by position. -/
def Heap := List (List (String × HV))

def hLookup : List (String × HV) → String → Option HV
  | [], _ => none
  | (k2, w) :: fs, k => if k2 = k then some w else hLookup fs k

def hCell (h : Heap) (v : HV) : List (String × HV) :=
  match v with
  | .ref a => (List.getD h a [])
  | _ => []

def hKeys (h : Heap) (v : HV) : List String := (hCell h v).map Prod.fst

def hHasOwn (h : Heap) (v : HV) (k : String) : Bool := (hLookup (hCell h v) k).isSome

def hGet (h : Heap) (v : HV) (k : String) : HV := (hLookup (hCell h v) k).getD HV.undef

structure HStackT where
  lhs : HV
  rhs : HV
deriving DecidableEq, Repr

/-- Change record over heap values; the array-specific fields are
omitted because the heap fragment has no array cells. -/
structure HChange where
  kind : String
  path : List String
  lhs : Option HV
  rhs : Option HV
deriving DecidableEq, Repr

def hDefinedCheck (h : Heap) (v : HV) (side : HV) (stack : List HStackT) (key : Option String) : Bool :=
  hTruthy v ||
    (!stack.isEmpty && hTruthy side && hHasOwn h side (key.getD "undefined"))

def hObjLoop1 (rec : HV → HV → Option String → Option (List HChange)) (h : Heap) (lo ro : HV) :
    List String → List (Option String) → Option (List HChange × List (Option String))
  | [], marked => some ([], marked)
  | k :: ks, marked =>
    match marked.findIdx? (· == some k) with
    | some i =>
      match rec (hGet h lo k) (hGet h ro k) (some k) with
      | none => none
      | some cs =>
        match hObjLoop1 rec h lo ro ks (marked.set i none) with
        | none => none
        | some (cs2, m2) => some (cs ++ cs2, m2)
    | none =>
      match rec (hGet h lo k) HV.null (some k) with
      | none => none
      | some cs =>
        match hObjLoop1 rec h lo ro ks marked with
        | none => none
        | some (cs2, m2) => some (cs ++ cs2, m2)

def hObjLoop2 (rec : HV → HV → Option String → Option (List HChange)) (h : Heap) (ro : HV) :
    List (Option String) → Option (List HChange)
  | [] => some []
  | m :: ms =>
    match m with
    | some k =>
      if k ≠ "" then
        match rec HV.null (hGet h ro k) (some k) with
        | none => none
        | some cs =>
          match hObjLoop2 rec h ro ms with
          | none => none
          | some cs2 => some (cs ++ cs2)
      else hObjLoop2 rec h ro ms
    | none => hObjLoop2 rec h ro ms

/-- The engine of src/Diff.js over the heap model, with the defaulted
options of the claim (no prefilter, order-dependent): the branch
structure is that of deepDiff, with strict equality now reference
equality, so the cycle scan compares addresses exactly as the source
compares object references. -/
def deepDiffH : Nat → Heap → HV → HV → List String → Option String → List HStackT → Option (List HChange)
  | 0, _, _, _, _, _, _ => none
  | fuel + 1, h, lhs, rhs, path, key, stack =>
    let keyTruthy : Bool := match key with | some k => decide (k ≠ "") | none => false
    let currentPath : List String := if keyTruthy then path ++ [key.getD ""] else path
    let topFrame : HV := match stack.getLast? with | some f => f.lhs | none => HV.undef
    let topFrameR : HV := match stack.getLast? with | some f => f.rhs | none => HV.undef
    let ldefined : Bool := hDefinedCheck h lhs topFrame stack key
    let rdefined : Bool := hDefinedCheck h rhs topFrameR stack key
    if !ldefined && rdefined then some [HChange.mk "N" currentPath none (some rhs)]
    else if !rdefined && ldefined then some [HChange.mk "D" currentPath (some lhs) none]
    else if realTypeOfH lhs ≠ realTypeOfH rhs then some [HChange.mk "E" currentPath (some lhs) (some rhs)]
    else if hTruthy lhs && hTruthy rhs && decide (hTypeof lhs = "object") then
      if stack.any (fun f => hStrictEq f.lhs lhs) then
        if !(hStrictEq lhs rhs) then some [HChange.mk "E" currentPath (some lhs) (some rhs)]
        else some []
      else
        let stack2 := stack ++ [HStackT.mk lhs rhs]
        let lhsKeys := hKeys h lhs
        let rhsKeysM : List (Option String) := (hKeys h rhs).map some
        match hObjLoop1 (fun l r key2 => deepDiffH fuel h l r currentPath key2 stack2)
            h lhs rhs lhsKeys rhsKeysM with
        | none => none
        | some (cs1, marked) =>
          match hObjLoop2 (fun l r key2 => deepDiffH fuel h l r currentPath key2 stack2)
              h rhs marked with
          | none => none
          | some cs2 => some (cs1 ++ cs2)
    else if !(hStrictEq lhs rhs) then some [HChange.mk "E" currentPath (some lhs) (some rhs)]
    else some []

/-- The two separately built self-referential objects of claim C8:
cell 0 is a and holds a.self = a, cell 1 is b and holds b.self = b. -/
def selfRefHeap : Heap := [[("self", HV.ref 0)], [("self", HV.ref 1)]]

/-!
Fragment used by the revert round-trip claim: values built from
scalars (undefined, null, booleans, numbers, NaN, strings, dates) and
plain objects with pairwise distinct, non-empty keys.  Arrays are
excluded because reverting several tail ArrayChange records in reverse
emission order applies removals at stale indices, and regexps because
an Edited record stores the stringified pattern, both of which defeat
the round trip; the counterexample theorem documents the root-level
failure that forces restricting the claim in the first place.
-/

def nodupKeys : List (String × V) → Bool
  | [] => true
  | (k, _) :: fs => fs.all (fun kv => kv.1 ≠ k) && nodupKeys fs

mutual
def plainB : V → Bool
  | .obj fs => nodupKeys fs && plainF fs
  | .arr _ => false
  | .regexp _ => false
  | _ => true

def plainF : List (String × V) → Bool
  | [] => true
  | (k, v) :: fs => decide (k ≠ "") && plainB v && plainF fs
end

/- Order-insensitive structural equivalence: objects are compared as
finite maps (same key set, pointwise equivalent values), everything
else by equality.  JavaScript deep equality of objects does not see key
insertion order, and a reverted target recovers the left value only up
to the order in which restored keys were re-added. -/
mutual
def vequiv : V → V → Bool
  | .obj fs, .obj gs => vequivF fs gs && gs.all (fun kv => (lookupF fs kv.1).isSome)
  | .arr xs, .arr ys => vequivL xs ys
  | a, b => decide (a = b)

def vequivF : List (String × V) → List (String × V) → Bool
  | [], _ => true
  | (k, v) :: fs, gs =>
    (match lookupF gs k with
     | some w => vequiv v w
     | none => false) && vequivF fs gs

def vequivL : List V → List V → Bool
  | [], [] => true
  | x :: xs, y :: ys => vequiv x y && vequivL xs ys
  | _, _ => false
end

/-- Prefixes every record path with the given path (the engine threads
the current path down; records of a recursive call relate to records of
a rooted call by this shift). -/
def shiftChange (p : List String) (c : Change) : Change :=
  Change.mk c.kind (p ++ c.path) c.lhs c.rhs c.index c.item

/-- Characterization of the engine on the plain fragment when both
sides are present, with paths relative to the compared pair: a type-tag
mismatch is a root Edited; two plain objects compare per key (left keys
in order against the right side, Deleted for right-absent keys, then
New for left-absent right keys in right order); otherwise the values
are scalars of equal tag and compare by equality, which on this
fragment coincides with strict equality with the NaN guard folded in
(NaN = NaN emits nothing, exactly as the engine's explicit NaN test).
The equivalence with deepDiff on the fragment is proved below, not
assumed.  Fuel follows the engine; relDiffFuel always suffices. -/
def relDiff : Nat → V → V → List Change
  | 0, _, _ => []
  | fuel + 1, l, r =>
    if realTypeOf l ≠ realTypeOf r then [eRec [] l r]
    else
      match l, r with
      | V.obj fs, V.obj gs =>
        (fs.flatMap (fun kv =>
          match lookupF gs kv.1 with
          | some w => (relDiff fuel kv.2 w).map (shiftChange [kv.1])
          | none => [dRec [kv.1] kv.2])) ++
        (gs.flatMap (fun kv =>
          if (lookupF fs kv.1).isNone then [nRec [kv.1] kv.2] else []))
      | l2, r2 => if l2 = r2 then [] else [eRec [] l2 r2]

def relDiffFuel (l r : V) : Nat := sizeV l + sizeV r

/-- Tests whether a value is a plain object. -/
def isObjV : V → Bool
  | .obj _ => true
  | _ => false

/-!
Basic lemmas about sizes, lookups and the engine, followed by the
claim theorems.
-/

theorem sizeV_pos : ∀ v : V, 1 ≤ sizeV v := by
  intro v
  cases v <;> simp [sizeV]

theorem lookupF_mem_size : ∀ (fs : List (String × V)) (k : String) (w : V),
    lookupF fs k = some w → sizeV w ≤ sizeF fs := by
  intro fs
  induction fs with
  | nil => intro k w h; simp [lookupF] at h
  | cons kv fs ih =>
    intro k w h
    obtain ⟨k2, v2⟩ := kv
    simp only [lookupF] at h
    by_cases hk : k2 = k
    · rw [if_pos hk] at h
      injection h with h
      subst h
      simp [sizeF]
      omega
    · rw [if_neg hk] at h
      have := ih k w h
      simp [sizeF]
      omega

theorem lookupF_size_lt : ∀ (fs : List (String × V)) (k : String) (w : V),
    lookupF fs k = some w → sizeV w < sizeV (V.obj fs) := by
  intro fs k w h
  have := lookupF_mem_size fs k w h
  simp [sizeV]
  omega

theorem jsGet_obj_size_lt (fs : List (String × V)) (k : String)
    (h : (lookupF fs k).isSome) : sizeV (jsGet (V.obj fs) k) < sizeV (V.obj fs) := by
  obtain ⟨w, hw⟩ := Option.isSome_iff_exists.mp h
  have := lookupF_size_lt fs k w hw
  simp [jsGet, hw]
  simpa [sizeV] using this

theorem mem_size_le : ∀ (xs : List V) (x : V), x ∈ xs → sizeV x ≤ sizeL xs := by
  intro xs
  induction xs with
  | nil => intro x h; simp at h
  | cons y ys ih =>
    intro x h
    rcases List.mem_cons.mp h with h | h
    · subst h; simp [sizeL]; omega
    · have := ih x h; simp [sizeL]; omega

theorem getD_size_lt (xs : List V) (i : Nat) (h : i < xs.length) :
    sizeV (xs.getD i V.undef) < sizeV (V.arr xs) := by
  have hm : xs.getD i V.undef ∈ xs := by
    rw [List.getD_eq_getElem?_getD, List.getElem?_eq_getElem h]
    exact List.getElem_mem h
  have := mem_size_le xs _ hm
  simp only [sizeV]
  omega

theorem jsStrictEq_eq {a b : V} (h : jsStrictEq a b = true) : a = b := by
  simp [jsStrictEq] at h
  exact h.1

theorem jsStrictEq_self_not_nan {a : V} (h : isNaNV a = false) : jsStrictEq a a = true := by
  simp [jsStrictEq, h]

theorem keysOf_lookup_isSome (fs : List (String × V)) (k : String)
    (h : k ∈ fs.map Prod.fst) : (lookupF fs k).isSome := by
  induction fs with
  | nil => simp at h
  | cons kv fs ih =>
    obtain ⟨k2, v2⟩ := kv
    simp only [List.map_cons, List.mem_cons] at h
    simp only [lookupF]
    by_cases hk : k2 = k
    · simp [hk]
    · rw [if_neg hk]
      rcases h with h | h
      · exact absurd h.symm hk
      · exact ih h

theorem downTo_self : ∀ n : Nat, downTo n n = [] := by
  intro n
  cases n with
  | zero => simp [downTo]
  | succ m => simp [downTo]

theorem objLoop2_allnone (rec : V → V → Option String → Option (List Change)) (ro : V) :
    ∀ marked : List (Option String), (∀ x ∈ marked, x = none) →
      objLoop2 rec ro marked = some [] := by
  intro marked
  induction marked with
  | nil => intro _; simp [objLoop2]
  | cons m ms ih =>
    intro h
    have hm : m = none := h m (List.mem_cons_self m ms)
    subst hm
    simp only [objLoop2]
    exact ih (fun x hx => h x (List.mem_cons_of_mem _ hx))

theorem findIdx?_nones (k : String) :
    ∀ (pre rest : List (Option String)), (∀ x ∈ pre, x = none) →
      (pre ++ some k :: rest).findIdx? (· == some k) = some pre.length := by
  intro pre
  induction pre with
  | nil =>
    intro rest _
    simp [List.findIdx?_cons]
  | cons x pre ih =>
    intro rest h
    have hx : x = none := h x (List.mem_cons_self x pre)
    subst hx
    rw [List.cons_append, List.findIdx?_cons]
    simp only [show ((none : Option String) == some k) = false from rfl, if_false]
    rw [List.findIdx?_succ, ih rest (fun y hy => h y (List.mem_cons_of_mem _ hy))]
    simp

theorem set_marked_at (k : String) :
    ∀ (pre rest : List (Option String)), (∀ x ∈ pre, x = none) →
      (pre ++ some k :: rest).set pre.length none = (pre ++ [none]) ++ rest := by
  intro pre
  induction pre with
  | nil => intro rest _; simp
  | cons x pre ih =>
    intro rest h
    simp only [List.cons_append, List.length_cons, List.set_cons_succ]
    rw [ih rest (fun y hy => h y (List.mem_cons_of_mem _ hy))]

theorem objLoop1_diag (rec : V → V → Option String → Option (List Change)) (o : V) :
    ∀ (ks : List String) (pre : List (Option String)), (∀ x ∈ pre, x = none) →
      (∀ k ∈ ks, rec (jsGet o k) (jsGet o k) (some k) = some []) →
      ∃ m2, objLoop1 rec o o ks (pre ++ ks.map some) = some ([], m2) ∧ ∀ x ∈ m2, x = none := by
  intro ks
  induction ks with
  | nil =>
    intro pre hpre _
    refine ⟨pre, ?_, hpre⟩
    simp [objLoop1]
  | cons k ks ih =>
    intro pre hpre hrec
    simp only [List.map_cons, objLoop1]
    rw [findIdx?_nones k pre (ks.map some) hpre]
    simp only
    rw [hrec k (List.mem_cons_self k ks)]
    simp only
    rw [set_marked_at k pre (ks.map some) hpre]
    have hpre2 : ∀ x ∈ pre ++ [none], x = (none : Option String) := by
      intro x hx
      rcases List.mem_append.mp hx with hx | hx
      · exact hpre x hx
      · simpa using hx
    obtain ⟨m2, hm2, hall⟩ := ih (pre ++ [none]) hpre2
      (fun k2 hk2 => hrec k2 (List.mem_cons_of_mem _ hk2))
    refine ⟨m2, ?_, hall⟩
    rw [hm2]
    simp

theorem arrCommon_diag (rec : V → V → Option String → Option (List Change)) (xs : List V) :
    ∀ k : Nat, (∀ i : Nat, i < k →
        rec (xs.getD i V.undef) (xs.getD i V.undef) (some (Nat.repr i)) = some []) →
      arrCommon rec xs xs k = some [] := by
  intro k
  induction k with
  | zero => intro _; simp [arrCommon]
  | succ k ih =>
    intro h
    simp only [arrCommon]
    rw [h k (Nat.lt_succ_self k)]
    simp only
    rw [ih (fun i hi => h i (Nat.lt_succ_of_lt hi))]
    simp

theorem sizeL_insertByHash (h : V → Int) (x : V) :
    ∀ ys : List V, sizeL (insertByHash h x ys) = 1 + sizeV x + sizeL ys := by
  intro ys
  induction ys with
  | nil => simp [insertByHash, sizeL]
  | cons y ys ih =>
    simp only [insertByHash]
    split
    · simp [sizeL]
    · simp [sizeL, ih]
      omega

theorem sizeL_sortFold (h : V → Int) :
    ∀ (xs : List V) (acc : List V),
      sizeL (xs.foldl (fun a x => insertByHash h x a) acc) = sizeL acc + sizeL xs := by
  intro xs
  induction xs with
  | nil => intro acc; simp [sizeL]
  | cons x xs ih =>
    intro acc
    simp only [List.foldl_cons]
    rw [ih (insertByHash h x acc), sizeL_insertByHash]
    simp [sizeL]
    omega

theorem sizeL_sortByHash (h : V → Int) (xs : List V) : sizeL (sortByHash h xs) = sizeL xs := by
  unfold sortByHash
  rw [sizeL_sortFold]
  simp [sizeL]

/-- Reflexivity of the engine: comparing any value against itself over
a diagonal stack (every frame has equal members, as happens along a
self-comparison) emits nothing, under every option set. -/
theorem deepDiff_diag :
    ∀ (fuel : Nat) (v : V) (opts : Opts) (path : List String) (key : Option String)
      (stack : List StackT), sizeV v < fuel → (∀ f ∈ stack, f.lhs = f.rhs) →
      deepDiff fuel v v opts path key stack = some [] := by
  intro fuel
  induction fuel with
  | zero =>
    intro v _ _ _ _ hs _
    exact absurd hs (by have := sizeV_pos v; omega)
  | succ n ih =>
    intro v opts path key stack hs hstack
    simp only [deepDiff]
    by_cases hpf : (keyTruthyOf key && prefilterHitOf opts path key) = true
    · rw [if_pos hpf]
    · rw [if_neg hpf]
      set v2 := if decide (realTypeOf v = "regexp") && decide (realTypeOf v = "regexp")
        then regexpToString v else v with hv2
      have hn2 : sizeV v2 ≤ n := by
        have hsz2 : sizeV v2 ≤ sizeV v := by
          rw [hv2]
          split
          · cases v <;> simp [regexpToString, sizeV]
          · exact le_refl _
        omega
      clear hv2
      clear_value v2
      have hld : definedCheck v2 (lastLhs stack) stack key =
          definedCheck v2 (lastRhs stack) stack key := by
        unfold lastLhs lastRhs
        cases hgl : stack.getLast? with
        | none => rfl
        | some f =>
          show definedCheck v2 f.lhs stack key = definedCheck v2 f.rhs stack key
          rw [hstack f (List.mem_of_getLast?_eq_some hgl)]
      rw [hld]
      have hns : ∀ b : Bool, (!b && b) = false := by intro b; cases b <;> rfl
      rw [hns]
      simp only [Bool.false_eq_true, if_false]
      rw [if_neg (fun hne => hne rfl)]
      split
      · next hdd =>
          exfalso
          revert hdd
          cases v2 <;> simp
      next hdd =>
      by_cases hobj : (jsTruthy v2 && jsTruthy v2 && decide (jsTypeof v2 = "object")) = true
      · rw [if_pos hobj]
        have hnotnan : isNaNV v2 = false := by
          cases v2 <;> simp_all [jsTruthy, isNaNV]
        by_cases hcyc : cycleHit stack v2 = true
        · rw [if_pos hcyc]
          rw [jsStrictEq_self_not_nan hnotnan]
          simp
        · rw [if_neg hcyc]
          cases v2 with
          | arr xs =>
            simp only
            set xs2 := if opts.orderIndependent then sortByHash opts.hash xs else xs with hxs2
            have hsize2 : sizeL xs2 = sizeL xs := by
              rw [hxs2]
              split
              · exact sizeL_sortByHash opts.hash xs
              · rfl
            clear hxs2
            clear_value xs2
            have hcommon : arrCommon
                (fun l r key2 => deepDiff n l r opts (currentPathOf path key) key2
                  (stack ++ [StackT.mk (V.arr xs) (V.arr xs)]))
                xs2 xs2 (min xs2.length xs2.length) = some [] := by
              apply arrCommon_diag
              intro i hi
              apply ih
              · have h1 : sizeV (xs2.getD i V.undef) < sizeV (V.arr xs2) :=
                  getD_size_lt xs2 i (by omega)
                have h2 : sizeV (V.arr xs2) = sizeV (V.arr xs) := by
                  simp [sizeV, hsize2]
                have h3 : sizeV (V.arr xs) ≤ n := hn2
                omega
              · intro f hf
                rcases List.mem_append.mp hf with hf | hf
                · exact hstack f hf
                · simp at hf
                  rw [hf]
            rw [hcommon]
            simp [arrTailNew, arrTailDel, downTo_self]
          | obj fs =>
            simp only
            have hrec : ∀ k ∈ keysOf (V.obj fs),
                (fun l r key2 => deepDiff n l r opts (currentPathOf path key) key2
                  (stack ++ [StackT.mk (V.obj fs) (V.obj fs)]))
                  (jsGet (V.obj fs) k) (jsGet (V.obj fs) k) (some k) = some [] := by
              intro k hk
              apply ih
              · have h1 : (lookupF fs k).isSome := keysOf_lookup_isSome fs k (by simpa [keysOf] using hk)
                have h2 := jsGet_obj_size_lt fs k h1
                have h3 : sizeV (V.obj fs) ≤ n := hn2
                omega
              · intro f hf
                rcases List.mem_append.mp hf with hf | hf
                · exact hstack f hf
                · simp at hf
                  rw [hf]
            obtain ⟨m2, h1, h2⟩ := objLoop1_diag
              (fun l r key2 => deepDiff n l r opts (currentPathOf path key) key2
                (stack ++ [StackT.mk (V.obj fs) (V.obj fs)]))
              (V.obj fs) (keysOf (V.obj fs)) [] (by simp) hrec
            rw [List.nil_append] at h1
            rw [h1]
            simp only
            rw [objLoop2_allnone _ (V.obj fs) m2 h2]
            rfl
          | undef => simp_all [jsTruthy]
          | null => simp_all [jsTruthy]
          | boolV b => simp_all [jsTypeof]
          | num m => simp_all [jsTypeof]
          | nan => simp_all [jsTruthy]
          | str s => simp_all [jsTypeof]
          | date ms =>
            simp only
            have h1 : objLoop1
                (fun l r key2 => deepDiff n l r opts (currentPathOf path key) key2
                  (stack ++ [StackT.mk (V.date ms) (V.date ms)]))
                (V.date ms) (V.date ms) (keysOf (V.date ms)) ((keysOf (V.date ms)).map some) =
                some ([], []) := by
              simp [keysOf, objLoop1]
            rw [h1]
            simp only
            rw [objLoop2_allnone _ (V.date ms) [] (by simp)]
            rfl
          | regexp s =>
            simp only
            have h1 : objLoop1
                (fun l r key2 => deepDiff n l r opts (currentPathOf path key) key2
                  (stack ++ [StackT.mk (V.regexp s) (V.regexp s)]))
                (V.regexp s) (V.regexp s) (keysOf (V.regexp s)) ((keysOf (V.regexp s)).map some) =
                some ([], []) := by
              simp [keysOf, objLoop1]
            rw [h1]
            simp only
            rw [objLoop2_allnone _ (V.regexp s) [] (by simp)]
            rfl
      · rw [if_neg hobj]
        by_cases hnan : isNaNV v2 = true
        · have hv2n : v2 = V.nan := by cases v2 <;> simp_all [isNaNV]
          subst hv2n
          simp [jsStrictEq, isNaNV, jsTypeof]
        · have hnn : isNaNV v2 = false := by simp_all
          rw [jsStrictEq_self_not_nan hnn]
          simp

theorem deepDiff_left_only (fuel : Nat) (lv : V) (path : List String) (k : String)
    (stack : List StackT) (hf : fuel ≠ 0) (hk : k ≠ "")
    (hld : definedCheck lv (lastLhs stack) stack (some k) = true)
    (hrd : definedCheck V.null (lastRhs stack) stack (some k) = false) :
    deepDiff fuel lv V.null defaultOpts path (some k) stack = some [dRec (path ++ [k]) lv] := by
  cases fuel with
  | zero => exact absurd rfl hf
  | succ m =>
    simp only [deepDiff]
    have hpf : (keyTruthyOf (some k) && prefilterHitOf defaultOpts path (some k)) = false := by
      simp [prefilterHitOf, defaultOpts]
    rw [hpf]
    simp only [Bool.false_eq_true, if_false]
    have hbr : (decide (realTypeOf lv = "regexp") && decide (realTypeOf V.null = "regexp")) = false := by
      simp [realTypeOf]
    rw [hbr]
    simp only [Bool.false_eq_true, if_false]
    rw [hld, hrd]
    simp only [Bool.not_false, Bool.not_true, Bool.false_and, Bool.and_false, Bool.true_and,
      Bool.and_true, Bool.false_eq_true, if_false, if_true]
    have hcp : currentPathOf path (some k) = path ++ [k] := by
      simp [currentPathOf, keyTruthyOf, hk]
    rw [hcp]

theorem deepDiff_right_only (fuel : Nat) (rv : V) (path : List String) (k : String)
    (stack : List StackT) (hf : fuel ≠ 0) (hk : k ≠ "")
    (hld : definedCheck V.null (lastLhs stack) stack (some k) = false)
    (hrd : definedCheck rv (lastRhs stack) stack (some k) = true) :
    deepDiff fuel V.null rv defaultOpts path (some k) stack = some [nRec (path ++ [k]) rv] := by
  cases fuel with
  | zero => exact absurd rfl hf
  | succ m =>
    simp only [deepDiff]
    have hpf : (keyTruthyOf (some k) && prefilterHitOf defaultOpts path (some k)) = false := by
      simp [prefilterHitOf, defaultOpts]
    rw [hpf]
    simp only [Bool.false_eq_true, if_false]
    have hbr : (decide (realTypeOf V.null = "regexp") && decide (realTypeOf rv = "regexp")) = false := by
      simp [realTypeOf]
    rw [hbr]
    simp only [Bool.false_eq_true, if_false]
    rw [hld, hrd]
    simp only [Bool.not_false, Bool.not_true, Bool.false_and, Bool.and_false, Bool.true_and,
      Bool.and_true, Bool.false_eq_true, if_false, if_true]
    have hcp : currentPathOf path (some k) = path ++ [k] := by
      simp [currentPathOf, keyTruthyOf, hk]
    rw [hcp]

/-- Claim C5: for every value v, including values containing NaN,
diff(v, v, defaultOptions) produces an empty sequence of change
records.  NaN compares equal to itself through the explicit engine
guard, so a value containing NaN still yields nothing. -/
theorem diff_self_empty (v : V) : diffRun v v defaultOpts = some [] := by
  apply deepDiff_diag
  · unfold diffFuel
    have := sizeV_pos v
    omega
  · intro f hf
    simp at hf

/-- Claim C4 counterexample: diff(0, "x") has v1 != v2 with different
type tags ("number" vs "string"), yet the single emitted record is a
New record, not an Edited one: at the root the stack is empty and the
falsy left side 0 fails the ldefined presence test, so the presence
branch fires before the type-tag comparison is reached. -/
theorem diff_cross_type_counterexample :
    diffRun (V.num 0) (V.str "x") defaultOpts = some [nRec [] (V.str "x")] ∧
    nRec [] (V.str "x") ≠ eRec [] (V.num 0) (V.str "x") := by
  constructor
  · decide
  · decide

/-- Claim C4 amended: for every pair of values of different type tags
in which both values are truthy, diff yields exactly one Edited record
at the root carrying both raw values (when exactly one side is falsy at
the root the presence check fires first and the single record is New or
Deleted instead). -/
theorem diff_cross_type_truthy_edited (v1 v2 : V) (h1 : jsTruthy v1 = true)
    (h2 : jsTruthy v2 = true) (hne : realTypeOf v1 ≠ realTypeOf v2) :
    diffRun v1 v2 defaultOpts = some [eRec [] v1 v2] := by
  unfold diffRun diffFuel
  simp only [deepDiff]
  have hpf : (keyTruthyOf none && prefilterHitOf defaultOpts [] none) = false := by
    simp [keyTruthyOf]
  rw [hpf]
  simp only [Bool.false_eq_true, if_false]
  have hbr : (decide (realTypeOf v1 = "regexp") && decide (realTypeOf v2 = "regexp")) = false := by
    by_cases ha : realTypeOf v1 = "regexp"
    · by_cases hb : realTypeOf v2 = "regexp"
      · exact absurd (ha.trans hb.symm) hne
      · simp [hb]
    · simp [ha]
  rw [hbr]
  simp only [Bool.false_eq_true, if_false]
  have hld : definedCheck v1 (lastLhs []) [] none = true := by
    simp [definedCheck, h1]
  have hrd : definedCheck v2 (lastRhs []) [] none = true := by
    simp [definedCheck, h2]
  rw [hld, hrd]
  simp only [Bool.not_true, Bool.false_and, Bool.and_false, Bool.false_eq_true, if_false,
    Bool.and_true, Bool.true_and]
  rw [if_pos hne]
  rfl

/-- Witness for the amended claim C4 at a concrete truthy cross-type
pair. -/
theorem diff_cross_type_truthy_edited_witness :
    diffRun (V.num 1) (V.str "a") defaultOpts = some [eRec [] (V.num 1) (V.str "a")] :=
  diff_cross_type_truthy_edited (V.num 1) (V.str "a") (by decide) (by decide) (by decide)

/-- Claim C6: a present-but-falsy value is distinguished from an
absent one by the own-property check on the enclosing stack frame:
diff(a: 0 against the empty object) yields exactly one Deleted record
at path ["a"] with stored value 0. -/
theorem diff_falsy_presence_deleted :
    diffRun (V.obj [("a", V.num 0)]) (V.obj []) defaultOpts = some [dRec ["a"] (V.num 0)] := by
  decide

/-- Claim C7: array comparison is positional with tail-anchored
insertions: diff([1,2], [1,2,3,4]) yields exactly the two
ArrayChange-wrapping-New records at indices 3 then 2, in descending
emission order, and no record for the common indices 0 and 1. -/
theorem diff_array_tail_growth :
    diffRun (V.arr [V.num 1, V.num 2]) (V.arr [V.num 1, V.num 2, V.num 3, V.num 4]) defaultOpts =
      some [aNewRec [] 3 (V.num 4), aNewRec [] 2 (V.num 3)] := by
  decide

/-- Claim C8 counterexample: for the two separately-built
self-referential objects a and b of identical cyclic shape, the
traversal terminates, but it does not yield an empty record sequence:
the cycle re-entry at key self compares the two references, which are
different objects, so one Edited record at path ["self"] is emitted. -/
theorem diff_cycle_counterexample :
    deepDiffH 5 selfRefHeap (HV.ref 0) (HV.ref 1) [] none [] =
      some [HChange.mk "E" ["self"] (some (HV.ref 0)) (some (HV.ref 1))] ∧
    some [HChange.mk "E" ["self"] (some (HV.ref 0)) (some (HV.ref 1))] ≠
      some ([] : List HChange) := by
  constructor
  · decide
  · decide

/-- Claim C8 amended: diff over the two separately-built
self-referential objects terminates (the stack-based cycle check stops
descent on re-entry of the left reference) and yields exactly one
Edited record at path ["self"] carrying the two distinct references;
only when both sides are the same reference does the cycle re-entry
yield no records. -/
theorem diff_cycle_terminates :
    deepDiffH 5 selfRefHeap (HV.ref 0) (HV.ref 1) [] none [] =
      some [HChange.mk "E" ["self"] (some (HV.ref 0)) (some (HV.ref 1))] ∧
    deepDiffH 5 selfRefHeap (HV.ref 0) (HV.ref 0) [] none [] = some [] := by
  constructor
  · decide
  · decide

/-- Claim C3 counterexample: revert with an unrecognized (but
non-empty) kind is not a complete no-op: the path walk auto-vivifies
missing intermediate segments before the kind switch falls through, so
an empty target gains the intermediate object a. -/
theorem revert_unrecognized_kind_counterexample :
    revertChange (V.obj []) (Change.mk "X" ["a", "b"] none none none none) =
      V.obj [("a", V.obj [])] ∧
    V.obj [("a", V.obj [])] ≠ V.obj [] := by
  constructor
  · decide
  · decide

/-- Claim C3 amended: revert is a no-op when the target is absent
(falsy) or the record is kindless; with an unrecognized non-empty kind
nothing is applied at the final path segment, so the target is
unchanged whenever the path has at most one segment, but a longer path
still auto-vivifies intermediate objects. -/
theorem revert_noop_conditions (t : V) (c : Change)
    (h : jsTruthy t = false ∨ c.kind = "" ∨
      (c.kind ∉ (["N", "D", "E", "A"] : List String) ∧ c.path.length ≤ 1)) :
    revertChange t c = t := by
  rcases h with h | h | ⟨hk, hp⟩
  · unfold revertChange
    rw [h]
    simp
  · unfold revertChange
    simp [h]
  · unfold revertChange
    split
    · have happ : ∀ k2 : String, applyAtKey t k2 c = t := by
        intro k2
        unfold applyAtKey
        split
        · exact absurd (by simp_all) hk
        · exact absurd (by simp_all) hk
        · exact absurd (by simp_all) hk
        · exact absurd (by simp_all) hk
        · rfl
      cases hcp : c.path with
      | nil => simp [revertAt, happ]
      | cons k rest =>
        cases rest with
        | nil => simp [revertAt, happ]
        | cons k2 rest2 => simp [hcp] at hp
    · rfl

/-- Witness for the amended claim C3 at concrete inputs: a falsy
target, a kindless record, and an unrecognized kind with a
one-segment path. -/
theorem revert_noop_conditions_witness :
    revertChange (V.num 0) (eRec ["a"] (V.num 1) (V.num 2)) = V.num 0 ∧
    revertChange (V.obj [("a", V.num 1)]) (Change.mk "" ["a"] none none none none) =
      V.obj [("a", V.num 1)] ∧
    revertChange (V.obj [("a", V.num 1)]) (Change.mk "X" ["a"] none none none none) =
      V.obj [("a", V.num 1)] :=
  ⟨revert_noop_conditions _ _ (Or.inl (by decide)),
   revert_noop_conditions _ _ (Or.inr (Or.inl (by decide))),
   revert_noop_conditions _ _ (Or.inr (Or.inr ⟨by decide, by decide⟩))⟩

theorem foldl_log (cs : List Change) :
    ∀ acc : List Change, cs.foldl (fun s c => s ++ [c]) acc = acc ++ cs := by
  induction cs with
  | nil => intro acc; simp
  | cons c cs ih =>
    intro acc
    simp only [List.foldl_cons]
    rw [ih]
    simp

theorem foldl_sink_error (cs : List Change) (e : String) :
    cs.foldl (fun st c => sinkObserver c st) (Except.error e) = Except.error e := by
  induction cs with
  | nil => rfl
  | cons c cs ih => simpa [sinkObserver] using ih

theorem foldl_sink_push (cs : List Change) :
    ∀ items : List Change,
      cs.foldl (fun st c => sinkObserver c st) (Except.ok (Sink.mk true items)) =
        Except.ok (Sink.mk true (items ++ cs)) := by
  induction cs with
  | nil => intro items; simp
  | cons c cs ih =>
    intro items
    rw [List.foldl_cons]
    have hh : sinkObserver c (Except.ok (Sink.mk true items)) =
        Except.ok (Sink.mk true (items ++ [c])) := rfl
    rw [hh, ih]
    simp

theorem foldl_sink_nopush (cs : List Change) (items : List Change) (hne : cs ≠ []) :
    cs.foldl (fun st c => sinkObserver c st) (Except.ok (Sink.mk false items)) =
      Except.error "accum should have a push() function" := by
  cases cs with
  | nil => exact absurd rfl hne
  | cons c cs =>
    rw [List.foldl_cons]
    have hh : sinkObserver c (Except.ok (Sink.mk false items)) =
        Except.error "accum should have a push() function" := rfl
    rw [hh]
    exact foldl_sink_error cs _

/-- Claim C2 counterexample: a sink without a push capability does not
fail when the two values are equal: the capability test lives inside
the per-record observer, so an empty diff never runs it, and the
invalid sink itself is returned. -/
theorem findDiff_invalid_sink_counterexample :
    findDiff (V.num 1) (V.num 1) false none (fun _ => 0) (some (Sink.mk false [])) =
      some (Except.ok (Sum.inr (Sink.mk false []))) := rfl

/-- Claim C2 amended: given the record sequence of the underlying
diff, findDiff with a sink lacking push fails with the invalid-sink
error exactly when at least one record was emitted (the check runs per
record after traversal, so an empty diff returns the invalid sink
unchanged); with a push-capable sink every record is appended in
emission order and the sink is returned; with no sink the fresh record
sequence is returned. -/
theorem findDiff_sink_behavior (lhs rhs : V) (oi : Bool)
    (pf : Option (List String → String → Bool)) (h : V → Int) (s : Sink) (cs : List Change)
    (hcs : diffRun lhs rhs (Opts.mk pf oi h) = some cs) :
    (s.hasPush = false → cs ≠ [] →
      findDiff lhs rhs oi pf h (some s) =
        some (Except.error "accum should have a push() function")) ∧
    (s.hasPush = true →
      findDiff lhs rhs oi pf h (some s) =
        some (Except.ok (Sum.inr (Sink.mk true (s.items ++ cs))))) ∧
    findDiff lhs rhs oi pf h none = some (Except.ok (Sum.inl cs)) := by
  refine ⟨?_, ?_, ?_⟩
  · intro hnp hne
    unfold findDiff observableDiff
    rw [hcs]
    simp only
    obtain ⟨hp, items⟩ := s
    simp only at hnp
    subst hnp
    rw [foldl_sink_nopush cs items hne]
    rfl
  · intro hp2
    unfold findDiff observableDiff
    rw [hcs]
    simp only
    obtain ⟨hp, items⟩ := s
    simp only at hp2
    subst hp2
    rw [foldl_sink_push cs items]
    rfl
  · unfold findDiff observableDiff
    rw [hcs]

/-- Witness for the amended claim C2 at concrete inputs covering all
three cases. -/
theorem findDiff_sink_behavior_witness :
    (findDiff (V.num 1) (V.num 2) false none (fun _ => 0) (some (Sink.mk false [])) =
      some (Except.error "accum should have a push() function")) ∧
    (findDiff (V.num 1) (V.num 2) false none (fun _ => 0) (some (Sink.mk true [])) =
      some (Except.ok (Sum.inr (Sink.mk true [eRec [] (V.num 1) (V.num 2)])))) ∧
    findDiff (V.num 1) (V.num 2) false none (fun _ => 0) none =
      some (Except.ok (Sum.inl [eRec [] (V.num 1) (V.num 2)])) := by
  have h := findDiff_sink_behavior (V.num 1) (V.num 2) false none (fun _ => 0)
    (Sink.mk false []) [eRec [] (V.num 1) (V.num 2)] (by decide)
  have h2 := findDiff_sink_behavior (V.num 1) (V.num 2) false none (fun _ => 0)
    (Sink.mk true []) [eRec [] (V.num 1) (V.num 2)] (by decide)
  exact ⟨h.1 rfl (by decide), by simpa using h2.2.1 rfl, h.2.2⟩

/-- Claim C9: observableDiff returns the full ordered record sequence
whether or not an observer is supplied, and a supplied observer is
invoked exactly once per record, in emission order, only after the
whole traversal is finished: the embedding threads the observer as a
state transformer over the completed record list, and with a logging
observer the final log is exactly that list. -/
theorem observableDiff_observer_calls (lhs rhs : V) (oi : Bool)
    (pf : Option (List String → String → Bool)) (h : V → Int) (cs : List Change)
    (hcs : diffRun lhs rhs (Opts.mk pf oi h) = some cs) :
    observableDiff lhs rhs (some (fun c log => log ++ [c])) ([] : List Change) pf oi h =
      some (cs, cs) ∧
    observableDiff (S := List Change) lhs rhs none [] pf oi h = some (cs, []) := by
  constructor
  · unfold observableDiff
    rw [hcs]
    simp only
    rw [foldl_log cs []]
    simp
  · unfold observableDiff
    rw [hcs]

/-- Witness for claim C9 at a concrete input. -/
theorem observableDiff_observer_calls_witness :
    observableDiff (V.num 1) (V.num 2) (some (fun c log => log ++ [c])) ([] : List Change)
      none false (fun _ => 0) =
      some ([eRec [] (V.num 1) (V.num 2)], [eRec [] (V.num 1) (V.num 2)]) ∧
    observableDiff (S := List Change) (V.num 1) (V.num 2) none [] none false (fun _ => 0) =
      some ([eRec [] (V.num 1) (V.num 2)], []) :=
  observableDiff_observer_calls (V.num 1) (V.num 2) false none (fun _ => 0)
    [eRec [] (V.num 1) (V.num 2)] (by decide)

theorem definedCheck_obj (fs : List (String × V)) (side : V) (stack : List StackT)
    (key : Option String) : definedCheck (V.obj fs) side stack key = true := by
  simp [definedCheck, jsTruthy]

/-- Reduction of one engine step on a pair of plain objects that is
not a cycle re-entry: the step runs the two key loops over the pushed
stack. -/
theorem deepDiff_objs_step (m : Nat) (lfs rfs : List (String × V)) (path : List String)
    (key : Option String) (stack : List StackT) (hcyc : cycleHit stack (V.obj lfs) = false) :
    deepDiff (m + 1) (V.obj lfs) (V.obj rfs) defaultOpts path key stack =
      (match objLoop1 (fun l r key2 => deepDiff m l r defaultOpts (currentPathOf path key) key2
          (stack ++ [StackT.mk (V.obj lfs) (V.obj rfs)]))
          (V.obj lfs) (V.obj rfs) (lfs.map Prod.fst) ((rfs.map Prod.fst).map some) with
       | none => none
       | some (cs1, marked) =>
         match objLoop2 (fun l r key2 => deepDiff m l r defaultOpts (currentPathOf path key) key2
             (stack ++ [StackT.mk (V.obj lfs) (V.obj rfs)])) (V.obj rfs) marked with
         | none => none
         | some cs2 => some (cs1 ++ cs2)) := by
  simp only [deepDiff]
  have hpf : (keyTruthyOf key && prefilterHitOf defaultOpts path key) = false := by
    simp [prefilterHitOf, defaultOpts]
  rw [hpf]
  simp only [Bool.false_eq_true, if_false]
  have hbr : (decide (realTypeOf (V.obj lfs) = "regexp") &&
      decide (realTypeOf (V.obj rfs) = "regexp")) = false := by
    simp [realTypeOf]
  rw [hbr]
  simp only [Bool.false_eq_true, if_false]
  rw [definedCheck_obj lfs _ _ _, definedCheck_obj rfs _ _ _]
  simp only [Bool.not_true, Bool.false_and, Bool.and_false, Bool.false_eq_true, if_false,
    Bool.and_true, Bool.true_and]
  rw [if_neg (by simp [realTypeOf] : ¬realTypeOf (V.obj lfs) ≠ realTypeOf (V.obj rfs))]
  have hobj : (jsTruthy (V.obj lfs) && jsTruthy (V.obj rfs) &&
      decide (jsTypeof (V.obj lfs) = "object")) = true := by
    simp [jsTruthy, jsTypeof]
  rw [hobj]
  simp only [if_true]
  rw [hcyc]
  simp only [Bool.false_eq_true, if_false]
  rfl

theorem objLoop1_absent (rec : V → V → Option String → Option (List Change)) (lo ro : V)
    (g : String → List Change) :
    ∀ (ks : List String) (marked : List (Option String)),
      (∀ k ∈ ks, marked.findIdx? (· == some k) = none) →
      (∀ k ∈ ks, rec (jsGet lo k) V.null (some k) = some (g k)) →
      objLoop1 rec lo ro ks marked = some (ks.flatMap g, marked) := by
  intro ks
  induction ks with
  | nil => intro marked _ _; simp [objLoop1]
  | cons k ks ih =>
    intro marked hnf hrec
    simp only [objLoop1]
    rw [hnf k (List.mem_cons_self k ks)]
    simp only
    rw [hrec k (List.mem_cons_self k ks)]
    simp only
    rw [ih marked (fun k2 hk2 => hnf k2 (List.mem_cons_of_mem _ hk2))
      (fun k2 hk2 => hrec k2 (List.mem_cons_of_mem _ hk2))]
    simp

/-- Claim C10: empty-string keys are special at the diff interface.
First conjunct: the remaining-right-keys loop skips an empty-string
entry outright (the truthiness test on the key), so a right-hand own
key "" with no matching left key never yields a New record.  Second
conjunct: consequently, diffing any plain object with empty-string-free
keys against the object holding only the key "" gives exactly the
record sequence of diffing it against the empty object.  Third
conjunct: a recursive comparison invoked under key "" neither consults
the prefilter (an always-true prefilter does not suppress it) nor
appends the key, so its Edited record carries the parent (root) path. -/
theorem diff_empty_key_special :
    (∀ (rec : V → V → Option String → Option (List Change)) (ro : V)
        (ms : List (Option String)),
      objLoop2 rec ro (some "" :: ms) = objLoop2 rec ro ms) ∧
    (∀ (lfs : List (String × V)) (v : V), "" ∉ lfs.map Prod.fst →
      diffRun (V.obj lfs) (V.obj [("", v)]) defaultOpts =
        diffRun (V.obj lfs) (V.obj []) defaultOpts) ∧
    diffRun (V.obj [("", V.num 1)]) (V.obj [("", V.num 2)])
      (Opts.mk (some (fun _ _ => true)) false (fun _ => 0)) =
      some [eRec [] (V.num 1) (V.num 2)] := by
  refine ⟨?_, ?_, by decide⟩
  · intro rec ro ms
    simp [objLoop2]
  · intro lfs v hno
    have hkne : ∀ k ∈ lfs.map Prod.fst, k ≠ "" := by
      intro k hk he
      exact hno (he ▸ hk)
    have habs : ∀ (rfs : List (String × V)) (m : Nat), m ≠ 0 →
        (∀ k ∈ lfs.map Prod.fst, (lookupF rfs k).isSome = false) →
        objLoop1 (fun l r key2 => deepDiff m l r defaultOpts (currentPathOf [] none) key2
            ([] ++ [StackT.mk (V.obj lfs) (V.obj rfs)]))
          (V.obj lfs) (V.obj rfs) (lfs.map Prod.fst) ((rfs.map Prod.fst).map some) =
          some ((lfs.map Prod.fst).flatMap
            (fun k => [dRec (currentPathOf [] none ++ [k]) (jsGet (V.obj lfs) k)]),
            (rfs.map Prod.fst).map some) := by
      intro rfs m hm habs2
      apply objLoop1_absent
      · intro k hk
        have hnone : lookupF rfs k = none := by
          have := habs2 k hk
          cases h : lookupF rfs k with
          | none => rfl
          | some w => rw [h] at this; simp at this
        clear habs2
        induction rfs with
        | nil => simp
        | cons kv rfs ih =>
          obtain ⟨k2, w2⟩ := kv
          simp only [lookupF] at hnone
          by_cases hkk : k2 = k
          · rw [if_pos hkk] at hnone
            exact absurd hnone (by simp)
          · rw [if_neg hkk] at hnone
            simp only [List.map_cons, List.findIdx?_cons]
            have : ((some k2 == some k) : Bool) = false := by
              simp [hkk]
            rw [this]
            simp only [Bool.false_eq_true, if_false]
            rw [List.findIdx?_succ]
            rw [ih hnone]
            rfl
      · intro k hk
        apply deepDiff_left_only m (jsGet (V.obj lfs) k) (currentPathOf [] none) k _ hm
          (hkne k hk)
        · have hlk : (lookupF lfs k).isSome = true := keysOf_lookup_isSome lfs k hk
          simp [definedCheck, lastLhs, jsTruthy, hasOwnProp, hlk]
        · have hrk : (lookupF rfs k).isSome = false := habs2 k hk
          simp [definedCheck, lastRhs, jsTruthy, hasOwnProp, hrk]
    unfold diffRun diffFuel
    rw [deepDiff_objs_step _ lfs [("", v)] [] none [] rfl,
      deepDiff_objs_step _ lfs [] [] none [] rfl]
    rw [habs [("", v)] _ (by have := sizeV_pos (V.obj lfs); omega)
      (by intro k hk; simp [lookupF, Ne.symm (hkne k hk)])]
    rw [habs [] _ (by have := sizeV_pos (V.obj lfs); omega) (by intro k hk; simp [lookupF])]
    simp [objLoop2]

/-- Witness for claim C10 at concrete inputs: the left object has key
a, the right object only the empty-string key, and the result is the
same single Deleted record as against the empty object. -/
theorem diff_empty_key_special_witness :
    diffRun (V.obj [("a", V.num 1)]) (V.obj [("", V.num 7)]) defaultOpts =
      diffRun (V.obj [("a", V.num 1)]) (V.obj []) defaultOpts :=
  diff_empty_key_special.2.1 [("a", V.num 1)] (V.num 7) (by decide)

theorem lookup_self : ∀ (fs : List (String × V)) (k : String) (v : V),
    nodupKeys fs = true → (k, v) ∈ fs → lookupF fs k = some v := by
  intro fs
  induction fs with
  | nil => intro k v _ h; simp at h
  | cons kv fs ih =>
    intro k v hnd h
    obtain ⟨k2, v2⟩ := kv
    simp only [nodupKeys, Bool.and_eq_true, List.all_eq_true] at hnd
    rcases List.mem_cons.mp h with h | h
    · rw [Prod.mk.injEq] at h
      obtain ⟨h1, h2⟩ := h
      subst h1
      subst h2
      simp [lookupF]
    · have hne : k2 ≠ k := by
        have := hnd.1 (k, v) h
        simp at this
        exact fun he => this he.symm
      simp only [lookupF, if_neg hne]
      exact ih k v hnd.2 h

theorem lookup_mem : ∀ (fs : List (String × V)) (k : String) (v : V),
    lookupF fs k = some v → (k, v) ∈ fs := by
  intro fs
  induction fs with
  | nil => intro k v h; simp [lookupF] at h
  | cons kv fs ih =>
    intro k v h
    obtain ⟨k2, v2⟩ := kv
    simp only [lookupF] at h
    by_cases hk : k2 = k
    · rw [if_pos hk] at h
      injection h with h
      subst hk h
      exact List.mem_cons_self _ _
    · rw [if_neg hk] at h
      exact List.mem_cons_of_mem _ (ih k v h)

theorem isSome_mem_keys : ∀ (fs : List (String × V)) (k : String),
    (lookupF fs k).isSome = true → k ∈ fs.map Prod.fst := by
  intro fs k h
  obtain ⟨v, hv⟩ := Option.isSome_iff_exists.mp h
  exact List.mem_map.mpr ⟨(k, v), lookup_mem fs k v hv, rfl⟩

theorem lookup_setField_self : ∀ (fs : List (String × V)) (k : String) (v : V),
    lookupF (setField fs k v) k = some v := by
  intro fs
  induction fs with
  | nil => intro k v; simp [setField, lookupF]
  | cons kv fs ih =>
    intro k v
    obtain ⟨k2, v2⟩ := kv
    simp only [setField]
    by_cases hk : k2 = k
    · rw [if_pos hk]
      simp [lookupF, hk]
    · rw [if_neg hk]
      simp only [lookupF, if_neg hk]
      exact ih k v

theorem lookup_setField_other : ∀ (fs : List (String × V)) (k k2 : String) (v : V),
    k2 ≠ k → lookupF (setField fs k v) k2 = lookupF fs k2 := by
  intro fs
  induction fs with
  | nil =>
    intro k k2 v hne
    simp only [setField, lookupF]
    rw [if_neg (Ne.symm hne)]
  | cons kv fs ih =>
    intro k k2 v hne
    obtain ⟨k3, v3⟩ := kv
    simp only [setField]
    by_cases hk : k3 = k
    · rw [if_pos hk]
      subst hk
      simp only [lookupF]
      rw [if_neg (Ne.symm hne), if_neg (Ne.symm hne)]
    · rw [if_neg hk]
      simp only [lookupF]
      by_cases hk2 : k3 = k2
      · simp [hk2]
      · rw [if_neg hk2, if_neg hk2]
        exact ih k k2 v hne

theorem setField_id : ∀ (fs : List (String × V)) (k : String) (v : V),
    lookupF fs k = some v → setField fs k v = fs := by
  intro fs
  induction fs with
  | nil => intro k v h; simp [lookupF] at h
  | cons kv fs ih =>
    intro k v h
    obtain ⟨k2, v2⟩ := kv
    simp only [lookupF] at h
    simp only [setField]
    by_cases hk : k2 = k
    · rw [if_pos hk] at h
      rw [if_pos hk]
      injection h with h
      rw [h]
    · rw [if_neg hk] at h
      rw [if_neg hk]
      rw [ih k v h]

theorem setField_setField : ∀ (fs : List (String × V)) (k : String) (v w : V),
    setField (setField fs k v) k w = setField fs k w := by
  intro fs
  induction fs with
  | nil => intro k v w; simp [setField]
  | cons kv fs ih =>
    intro k v w
    obtain ⟨k2, v2⟩ := kv
    simp only [setField]
    by_cases hk : k2 = k
    · rw [if_pos hk]
      simp [setField, hk]
    · rw [if_neg hk]
      simp only [setField, if_neg hk]
      rw [ih]

theorem keys_setField : ∀ (fs : List (String × V)) (k k2 : String) (v : V),
    k2 ∈ (setField fs k v).map Prod.fst ↔ (k2 = k ∨ k2 ∈ fs.map Prod.fst) := by
  intro fs
  induction fs with
  | nil => intro k k2 v; simp [setField]
  | cons kv fs ih =>
    intro k k2 v
    obtain ⟨k3, v3⟩ := kv
    simp only [setField]
    by_cases hk : k3 = k
    · subst hk
      rw [if_pos rfl]
      simp only [List.map_cons, List.mem_cons]
      tauto
    · rw [if_neg hk]
      simp only [List.map_cons, List.mem_cons]
      rw [ih k k2 v]
      tauto

theorem mem_keys_setField_elim : ∀ (fs : List (String × V)) (k : String) (v : V)
    (kv2 : String × V), kv2 ∈ setField fs k v → kv2.1 = k ∨ kv2.1 ∈ fs.map Prod.fst := by
  intro fs
  induction fs with
  | nil =>
    intro k v kv2 h
    simp [setField] at h
    simp [h]
  | cons kv fs ih =>
    intro k v kv2 h
    obtain ⟨k3, v3⟩ := kv
    simp only [setField] at h
    by_cases hk : k3 = k
    · rw [if_pos hk] at h
      rcases List.mem_cons.mp h with h | h
      · subst hk
        simp [h]
      · right
        simp only [List.map_cons, List.mem_cons]
        right
        exact List.mem_map.mpr ⟨kv2, h, rfl⟩
    · rw [if_neg hk] at h
      rcases List.mem_cons.mp h with h | h
      · subst h
        simp
      · rcases ih k v kv2 h with h2 | h2
        · exact Or.inl h2
        · right
          simp only [List.map_cons, List.mem_cons]
          exact Or.inr h2

theorem nodup_setField : ∀ (fs : List (String × V)) (k : String) (v : V),
    nodupKeys fs = true → nodupKeys (setField fs k v) = true := by
  intro fs
  induction fs with
  | nil => intro k v _; simp [setField, nodupKeys]
  | cons kv fs ih =>
    intro k v hnd
    obtain ⟨k2, v2⟩ := kv
    simp only [nodupKeys, Bool.and_eq_true, List.all_eq_true] at hnd
    simp only [setField]
    by_cases hk : k2 = k
    · rw [if_pos hk]
      simp only [nodupKeys, Bool.and_eq_true, List.all_eq_true]
      exact ⟨hnd.1, hnd.2⟩
    · rw [if_neg hk]
      simp only [nodupKeys, Bool.and_eq_true, List.all_eq_true]
      refine ⟨?_, ih k v hnd.2⟩
      intro kv2 h2
      rcases mem_keys_setField_elim fs k v kv2 h2 with hm | hm
      · simp only [decide_eq_true_eq]
        rw [hm]
        exact fun he => hk he.symm
      · obtain ⟨kv3, hkv3, hfst⟩ := List.mem_map.mp hm
        have := hnd.1 kv3 hkv3
        simp only [decide_eq_true_eq] at this ⊢
        rw [← hfst]
        exact this

theorem lookup_removeField_self : ∀ (fs : List (String × V)) (k : String),
    nodupKeys fs = true → lookupF (removeField fs k) k = none := by
  intro fs
  induction fs with
  | nil => intro k _; simp [removeField, lookupF]
  | cons kv fs ih =>
    intro k hnd
    obtain ⟨k2, v2⟩ := kv
    simp only [nodupKeys, Bool.and_eq_true, List.all_eq_true] at hnd
    simp only [removeField]
    by_cases hk : k2 = k
    · rw [if_pos hk]
      subst hk
      cases h : lookupF fs k2 with
      | none => rfl
      | some w =>
        have := hnd.1 (k2, w) (lookup_mem fs k2 w h)
        simp at this
    · rw [if_neg hk]
      simp only [lookupF, if_neg hk]
      exact ih k hnd.2

theorem lookup_removeField_other : ∀ (fs : List (String × V)) (k k2 : String),
    k2 ≠ k → lookupF (removeField fs k) k2 = lookupF fs k2 := by
  intro fs
  induction fs with
  | nil => intro k k2 _; simp [removeField]
  | cons kv fs ih =>
    intro k k2 hne
    obtain ⟨k3, v3⟩ := kv
    simp only [removeField]
    by_cases hk : k3 = k
    · rw [if_pos hk]
      subst hk
      simp only [lookupF]
      rw [if_neg (Ne.symm hne)]
    · rw [if_neg hk]
      simp only [lookupF]
      by_cases hk2 : k3 = k2
      · simp [hk2]
      · rw [if_neg hk2, if_neg hk2]
        exact ih k k2 hne

theorem nodup_removeField : ∀ (fs : List (String × V)) (k : String),
    nodupKeys fs = true → nodupKeys (removeField fs k) = true := by
  intro fs
  induction fs with
  | nil => intro k _; simp [removeField, nodupKeys]
  | cons kv fs ih =>
    intro k hnd
    obtain ⟨k2, v2⟩ := kv
    simp only [nodupKeys, Bool.and_eq_true, List.all_eq_true] at hnd
    simp only [removeField]
    by_cases hk : k2 = k
    · rw [if_pos hk]
      exact hnd.2
    · rw [if_neg hk]
      simp only [nodupKeys, Bool.and_eq_true, List.all_eq_true]
      refine ⟨?_, ih k hnd.2⟩
      intro kv2 h2
      have : kv2 ∈ fs := by
        revert h2
        clear hnd ih
        induction fs with
        | nil => intro h2; simp [removeField] at h2
        | cons kv3 fs ih2 =>
          intro h2
          obtain ⟨k4, v4⟩ := kv3
          simp only [removeField] at h2
          by_cases hk4 : k4 = k
          · rw [if_pos hk4] at h2
            exact List.mem_cons_of_mem _ h2
          · rw [if_neg hk4] at h2
            rcases List.mem_cons.mp h2 with h2 | h2
            · exact h2 ▸ List.mem_cons_self _ _
            · exact List.mem_cons_of_mem _ (ih2 h2)
      exact hnd.1 kv2 this

theorem plainB_obj_nodup (fs : List (String × V)) (h : plainB (V.obj fs) = true) :
    nodupKeys fs = true := by
  simp only [plainB, Bool.and_eq_true] at h
  exact h.1

theorem plainF_mem : ∀ (fs : List (String × V)) (kv : String × V),
    plainF fs = true → kv ∈ fs → plainB kv.2 = true ∧ kv.1 ≠ "" := by
  intro fs
  induction fs with
  | nil => intro kv _ h; simp at h
  | cons kv2 fs ih =>
    intro kv hp h
    obtain ⟨k2, v2⟩ := kv2
    simp only [plainF, Bool.and_eq_true, decide_eq_true_eq] at hp
    rcases List.mem_cons.mp h with h | h
    · subst h
      exact ⟨hp.1.2, hp.1.1⟩
    · exact ih kv hp.2 h

theorem plainB_obj_mem (fs : List (String × V)) (kv : String × V)
    (h : plainB (V.obj fs) = true) (hm : kv ∈ fs) : plainB kv.2 = true ∧ kv.1 ≠ "" := by
  simp only [plainB, Bool.and_eq_true] at h
  exact plainF_mem fs kv h.2 hm

theorem mem_sizeF : ∀ (fs : List (String × V)) (kv : String × V),
    kv ∈ fs → sizeV kv.2 ≤ sizeF fs := by
  intro fs
  induction fs with
  | nil => intro kv h; simp at h
  | cons kv2 fs ih =>
    intro kv h
    obtain ⟨k2, v2⟩ := kv2
    rcases List.mem_cons.mp h with h | h
    · subst h; simp [sizeF]; omega
    · have := ih kv h
      simp [sizeF]
      omega

theorem vequivF_of : ∀ (sub lfs : List (String × V)),
    (∀ kv ∈ sub, ∃ w, lookupF lfs kv.1 = some w ∧ vequiv kv.2 w = true) →
    vequivF sub lfs = true := by
  intro sub
  induction sub with
  | nil => intro lfs _; simp [vequivF]
  | cons kv sub ih =>
    intro lfs h
    obtain ⟨k, v⟩ := kv
    obtain ⟨w, hw, hvw⟩ := h (k, v) (List.mem_cons_self _ _)
    simp only [vequivF, Bool.and_eq_true]
    constructor
    · rw [hw]
      exact hvw
    · exact ih lfs (fun kv2 hkv2 => h kv2 (List.mem_cons_of_mem _ hkv2))

theorem vequiv_obj_of (ffs lfs : List (String × V))
    (h1 : ∀ kv ∈ ffs, ∃ w, lookupF lfs kv.1 = some w ∧ vequiv kv.2 w = true)
    (h2 : ∀ kv ∈ lfs, (lookupF ffs kv.1).isSome = true) :
    vequiv (V.obj ffs) (V.obj lfs) = true := by
  simp only [vequiv, Bool.and_eq_true, List.all_eq_true]
  exact ⟨vequivF_of ffs lfs h1, h2⟩

theorem vequiv_refl : ∀ (n : Nat) (v : V), sizeV v < n → plainB v = true →
    vequiv v v = true := by
  intro n
  induction n with
  | zero => intro v hs _; exact absurd hs (by have := sizeV_pos v; omega)
  | succ n ih =>
    intro v hs hp
    cases v with
    | obj fs =>
      have hnd : nodupKeys fs = true := plainB_obj_nodup fs hp
      apply vequiv_obj_of
      · intro kv hkv
        refine ⟨kv.2, lookup_self fs kv.1 kv.2 hnd (by rw [Prod.mk.eta] at *; exact hkv), ?_⟩
        apply ih
        · have h1 := mem_sizeF fs kv hkv
          simp only [sizeV] at hs
          omega
        · exact (plainB_obj_mem fs kv hp hkv).1
      · intro kv hkv
        rw [lookup_self fs kv.1 kv.2 hnd (by rw [Prod.mk.eta] at *; exact hkv)]
        rfl
    | arr xs => simp [plainB] at hp
    | undef => rfl
    | null => rfl
    | boolV b => simp [vequiv]
    | num m => simp [vequiv]
    | nan => rfl
    | str s => simp [vequiv]
    | date ms => simp [vequiv]
    | regexp s => simp [plainB] at hp

theorem lookup_none_of_not_mem : ∀ (fs : List (String × V)) (k : String),
    k ∉ fs.map Prod.fst → lookupF fs k = none := by
  intro fs
  induction fs with
  | nil => intro k _; rfl
  | cons kv fs ih =>
    intro k h
    obtain ⟨k2, v2⟩ := kv
    simp only [List.map_cons, List.mem_cons] at h
    push_neg at h
    have hne : k2 ≠ k := fun he => h.1 he.symm
    simp only [lookupF, if_neg hne]
    exact ih k h.2

theorem flatMap_nil_forall {α β : Type} (f : α → List β) :
    ∀ l : List α, l.flatMap f = [] → ∀ x ∈ l, f x = [] := by
  intro l
  induction l with
  | nil => intro _ x h; simp at h
  | cons y l ih =>
    intro h x hx
    simp only [List.flatMap_cons, List.append_eq_nil] at h
    rcases List.mem_cons.mp hx with hx | hx
    · exact hx ▸ h.1
    · exact ih h.2 x hx

theorem relDiff_kind : ∀ (fuel : Nat) (l r : V) (c : Change), c ∈ relDiff fuel l r →
    c.kind = "N" ∨ c.kind = "D" ∨ c.kind = "E" := by
  intro fuel
  induction fuel with
  | zero => intro l r c h; simp [relDiff] at h
  | succ m ih =>
    intro l r c h
    simp only [relDiff] at h
    split at h
    · simp only [List.mem_singleton] at h
      subst h
      right; right; rfl
    · split at h
      · rename_i lfs gs
        rcases List.mem_append.mp h with h | h
        · obtain ⟨kv, _, hkv⟩ := List.mem_flatMap.mp h
          revert hkv
          split
          · intro hkv
            obtain ⟨c2, hc2, hc2e⟩ := List.mem_map.mp hkv
            have := ih kv.2 _ c2 hc2
            subst hc2e
            simpa [shiftChange] using this
          · intro hkv
            simp only [List.mem_singleton] at hkv
            subst hkv
            right; left; rfl
        · obtain ⟨kv, _, hkv⟩ := List.mem_flatMap.mp h
          revert hkv
          split
          · intro hkv
            simp only [List.mem_singleton] at hkv
            subst hkv
            left; rfl
          · intro hkv; simp at hkv
      · split at h
        · simp at h
        · simp only [List.mem_singleton] at h
          subst h
          right; right; rfl

theorem relDiff_obj_path : ∀ (fuel : Nat) (lfs gs : List (String × V)) (c : Change),
    c ∈ relDiff fuel (V.obj lfs) (V.obj gs) → c.path ≠ [] := by
  intro fuel lfs gs c h
  cases fuel with
  | zero => simp [relDiff] at h
  | succ m =>
    simp only [relDiff] at h
    rw [if_neg (by simp [realTypeOf])] at h
    rcases List.mem_append.mp h with h | h
    · obtain ⟨kv, _, hkv⟩ := List.mem_flatMap.mp h
      revert hkv
      split
      · intro hkv
        obtain ⟨c2, _, hc2e⟩ := List.mem_map.mp hkv
        subst hc2e
        simp [shiftChange]
      · intro hkv
        simp only [List.mem_singleton] at hkv
        subst hkv
        simp [dRec]
    · obtain ⟨kv, _, hkv⟩ := List.mem_flatMap.mp h
      revert hkv
      split
      · intro hkv
        simp only [List.mem_singleton] at hkv
        subst hkv
        simp [nRec]
      · intro hkv; simp at hkv

theorem applyAtKey_shift (t : V) (k2 : String) (q : List String) (c : Change) :
    applyAtKey t k2 (shiftChange q c) = applyAtKey t k2 c := rfl

theorem revertAt_shift : ∀ (p : List String) (t : V) (q : List String) (c : Change),
    revertAt t p (shiftChange q c) = revertAt t p c
  | [], t, q, c => applyAtKey_shift t "undefined" q c
  | [k], t, q, c => applyAtKey_shift t k q c
  | k :: k2 :: rest, t, q, c => by
    simp only [revertAt]
    rw [revertAt_shift (k2 :: rest) _ q c]

theorem applyAtKey_obj (fs : List (String × V)) (k : String) (c : Change) :
    ∃ fs2, applyAtKey (V.obj fs) k c = V.obj fs2 ∧
      (nodupKeys fs = true → nodupKeys fs2 = true) := by
  unfold applyAtKey
  split
  · split
    · exact ⟨_, rfl, fun h => nodup_setField _ _ _ h⟩
    · exact ⟨fs, rfl, fun h => h⟩
  · exact ⟨_, rfl, fun h => nodup_setField _ _ _ h⟩
  · exact ⟨_, rfl, fun h => nodup_setField _ _ _ h⟩
  · exact ⟨_, rfl, fun h => nodup_removeField _ _ h⟩
  · exact ⟨fs, rfl, fun h => h⟩

theorem revertAt_obj : ∀ (p : List String) (fs : List (String × V)) (c : Change),
    ∃ fs2, revertAt (V.obj fs) p c = V.obj fs2 ∧
      (nodupKeys fs = true → nodupKeys fs2 = true)
  | [], fs, c => applyAtKey_obj fs "undefined" c
  | [k], fs, c => applyAtKey_obj fs k c
  | k :: k2 :: rest, fs, c => by
    simp only [revertAt, jsSet]
    exact ⟨_, rfl, fun h => nodup_setField _ _ _ h⟩

theorem revertChange_obj (fs : List (String × V)) (c : Change) :
    ∃ fs2, revertChange (V.obj fs) c = V.obj fs2 ∧
      (nodupKeys fs = true → nodupKeys fs2 = true) := by
  unfold revertChange
  split
  · exact revertAt_obj c.path fs c
  · exact ⟨fs, rfl, fun h => h⟩

theorem revertList_obj : ∀ (cs : List Change) (fs : List (String × V)),
    ∃ fs2, revertList cs (V.obj fs) = V.obj fs2 ∧
      (nodupKeys fs = true → nodupKeys fs2 = true) := by
  intro cs
  induction cs with
  | nil => intro fs; exact ⟨fs, rfl, fun h => h⟩
  | cons c cs ih =>
    intro fs
    obtain ⟨fs2, h2, hn2⟩ := ih fs
    have : revertList (c :: cs) (V.obj fs) = revertChange (revertList cs (V.obj fs)) c := rfl
    rw [this, h2]
    obtain ⟨fs3, h3, hn3⟩ := revertChange_obj fs2 c
    exact ⟨fs3, h3, fun h => hn3 (hn2 h)⟩

theorem revert_group_comp : ∀ (cs : List Change) (tfs : List (String × V)) (k : String)
    (ros : List (String × V)), lookupF tfs k = some (V.obj ros) →
    (∀ c ∈ cs, c.path ≠ [] ∧ c.kind ≠ "") →
    revertList (cs.map (shiftChange [k])) (V.obj tfs) =
      V.obj (setField tfs k (revertList cs (V.obj ros))) := by
  intro cs
  induction cs with
  | nil =>
    intro tfs k ros hk _
    show V.obj tfs = V.obj (setField tfs k (V.obj ros))
    rw [setField_id tfs k (V.obj ros) hk]
  | cons c cs ih =>
    intro tfs k ros hk hsh
    have hstep : revertList ((c :: cs).map (shiftChange [k])) (V.obj tfs) =
        revertChange (revertList (cs.map (shiftChange [k])) (V.obj tfs)) (shiftChange [k] c) := rfl
    rw [hstep, ih tfs k ros hk (fun c2 hc2 => hsh c2 (List.mem_cons_of_mem _ hc2))]
    obtain ⟨xfs, hx, _⟩ := revertList_obj cs ros
    obtain ⟨hpne, hkne⟩ := hsh c (List.mem_cons_self _ _)
    have hkind : (shiftChange [k] c).kind = c.kind := rfl
    unfold revertChange
    rw [if_pos (by simp [jsTruthy, hkind, hkne])]
    have hpath : (shiftChange [k] c).path = k :: c.path := rfl
    rw [hpath]
    cases hcp : c.path with
    | nil => exact absurd hcp hpne
    | cons p1 rest =>
      show jsSet (V.obj (setField tfs k (revertList cs (V.obj ros)))) k
          (revertAt (match jsGet (V.obj (setField tfs k (revertList cs (V.obj ros)))) k with
            | V.undef => V.obj [] | w => w) (p1 :: rest) (shiftChange [k] c)) = _
      have hget : jsGet (V.obj (setField tfs k (revertList cs (V.obj ros)))) k =
          revertList cs (V.obj ros) := by
        simp [jsGet, lookup_setField_self]
      rw [hget, hx]
      simp only
      rw [revertAt_shift]
      have hrc : revertAt (V.obj xfs) (p1 :: rest) c = revertChange (V.obj xfs) c := by
        unfold revertChange
        rw [if_pos (by simp [jsTruthy, hkne]), hcp]
      rw [hrc, ← hx]
      show V.obj (setField (setField tfs k (revertList cs (V.obj ros))) k
          (revertChange (revertList cs (V.obj ros)) c)) = _
      rw [setField_setField]
      rfl

theorem revert_del_group : ∀ (gs2 lfs tfs : List (String × V)), nodupKeys tfs = true →
    ∃ tfs2, revertList (gs2.flatMap (fun kv =>
        if (lookupF lfs kv.1).isNone = true then [nRec [kv.1] kv.2] else [])) (V.obj tfs) =
      V.obj tfs2 ∧ nodupKeys tfs2 = true ∧
      (∀ k2, (lookupF lfs k2).isSome = true → lookupF tfs2 k2 = lookupF tfs k2) ∧
      (∀ k2, k2 ∉ gs2.map Prod.fst → lookupF tfs2 k2 = lookupF tfs k2) ∧
      (∀ k2, k2 ∈ gs2.map Prod.fst → (lookupF lfs k2).isNone = true → lookupF tfs2 k2 = none) := by
  intro gs2
  induction gs2 with
  | nil =>
    intro lfs tfs hnd
    exact ⟨tfs, rfl, hnd, fun _ _ => rfl, fun _ _ => rfl, fun k2 h => by simp at h⟩
  | cons kv gs2 ih =>
    intro lfs tfs hnd
    obtain ⟨k, v⟩ := kv
    obtain ⟨tfs2, h2, hnd2, hp1, hp2, hp3⟩ := ih lfs tfs hnd
    simp only [List.flatMap_cons]
    rw [revertList, List.foldr_append]
    have hrest : List.foldr (fun c acc => revertChange acc c) (V.obj tfs)
        (gs2.flatMap (fun kv => if (lookupF lfs kv.1).isNone = true
          then [nRec [kv.1] kv.2] else [])) = V.obj tfs2 := h2
    rw [hrest]
    by_cases hk : (lookupF lfs k).isNone = true
    · rw [if_pos hk]
      have hone : List.foldr (fun c acc => revertChange acc c) (V.obj tfs2) [nRec [k] v] =
          V.obj (removeField tfs2 k) := by
        show revertChange (V.obj tfs2) (nRec [k] v) = V.obj (removeField tfs2 k)
        unfold revertChange
        rw [if_pos (by simp [jsTruthy, nRec])]
        rfl
      rw [hone]
      refine ⟨removeField tfs2 k, rfl, nodup_removeField _ _ hnd2, ?_, ?_, ?_⟩
      · intro k2 hs
        have hne : k2 ≠ k := by
          intro he
          rw [he] at hs
          rw [Option.isNone_iff_eq_none.mp hk] at hs
          simp at hs
        rw [lookup_removeField_other _ _ _ hne]
        exact hp1 k2 hs
      · intro k2 hnm
        simp only [List.map_cons, List.mem_cons] at hnm
        push_neg at hnm
        rw [lookup_removeField_other _ _ _ hnm.1]
        exact hp2 k2 hnm.2
      · intro k2 hm hno
        by_cases hke : k2 = k
        · subst hke
          exact lookup_removeField_self _ _ hnd2
        · simp only [List.map_cons, List.mem_cons] at hm
          rcases hm with hm | hm
          · exact absurd hm hke
          · rw [lookup_removeField_other _ _ _ hke]
            exact hp3 k2 hm hno
    · rw [if_neg hk]
      refine ⟨tfs2, rfl, hnd2, hp1, ?_, ?_⟩
      · intro k2 hnm
        simp only [List.map_cons, List.mem_cons] at hnm
        push_neg at hnm
        exact hp2 k2 hnm.2
      · intro k2 hm hno
        simp only [List.map_cons, List.mem_cons] at hm
        rcases hm with hm | hm
        · subst hm
          exact absurd hno hk
        · exact hp3 k2 hm hno

theorem revert_asm (groupFn : (String × V) → List Change) :
    ∀ (lsub tfs : List (String × V)), nodupKeys lsub = true → nodupKeys tfs = true →
    (∀ kv ∈ lsub, ∀ tfs2 : List (String × V), nodupKeys tfs2 = true →
       lookupF tfs2 kv.1 = lookupF tfs kv.1 →
       ∃ tfs3, revertList (groupFn kv) (V.obj tfs2) = V.obj tfs3 ∧ nodupKeys tfs3 = true ∧
         (∃ w, lookupF tfs3 kv.1 = some w ∧ vequiv w kv.2 = true) ∧
         (∀ k2, k2 ≠ kv.1 → lookupF tfs3 k2 = lookupF tfs2 k2)) →
    ∃ tfs2, revertList (lsub.flatMap groupFn) (V.obj tfs) = V.obj tfs2 ∧
      nodupKeys tfs2 = true ∧
      (∀ kv ∈ lsub, ∃ w, lookupF tfs2 kv.1 = some w ∧ vequiv w kv.2 = true) ∧
      (∀ k2, k2 ∉ lsub.map Prod.fst → lookupF tfs2 k2 = lookupF tfs k2) := by
  intro lsub
  induction lsub with
  | nil =>
    intro tfs _ hnd _
    exact ⟨tfs, rfl, hnd, fun kv h => by simp at h, fun _ _ => rfl⟩
  | cons kv lsub ih =>
    intro tfs hndl hnd hchild
    simp only [nodupKeys, Bool.and_eq_true, List.all_eq_true] at hndl
    obtain ⟨tfs2, h2, hnd2, hp1, hp2⟩ := ih tfs hndl.2 hnd
      (fun kv2 hkv2 => hchild kv2 (List.mem_cons_of_mem _ hkv2))
    simp only [List.flatMap_cons]
    rw [revertList, List.foldr_append]
    have hrest : List.foldr (fun c acc => revertChange acc c) (V.obj tfs)
        (lsub.flatMap groupFn) = V.obj tfs2 := h2
    rw [hrest]
    have hkey : lookupF tfs2 kv.1 = lookupF tfs kv.1 := by
      apply hp2
      intro hm
      obtain ⟨kv2, hkv2, hfst⟩ := List.mem_map.mp hm
      have := hndl.1 kv2 hkv2
      simp only [decide_eq_true_eq] at this
      exact this hfst
    obtain ⟨tfs3, h3, hnd3, hw3, hother3⟩ :=
      hchild kv (List.mem_cons_self _ _) tfs2 hnd2 hkey
    refine ⟨tfs3, h3, hnd3, ?_, ?_⟩
    · intro kv2 hkv2
      rcases List.mem_cons.mp hkv2 with hkv2 | hkv2
      · subst hkv2
        exact hw3
      · obtain ⟨w, hw, hvw⟩ := hp1 kv2 hkv2
        have hne : kv2.1 ≠ kv.1 := by
          have := hndl.1 kv2 hkv2
          simp only [decide_eq_true_eq] at this
          exact this
        refine ⟨w, ?_, hvw⟩
        rw [hother3 kv2.1 hne]
        exact hw
    · intro k2 hnm
      simp only [List.map_cons, List.mem_cons] at hnm
      push_neg at hnm
      rw [hother3 k2 hnm.1]
      exact hp2 k2 hnm.2

theorem not_obj_pair (a b : V) (h : ¬∃ l2 g2, a = V.obj l2 ∧ b = V.obj g2) :
    (isObjV a && isObjV b) = false := by
  cases a <;> cases b <;> simp [isObjV]
  exact h ⟨_, _, rfl, rfl⟩

theorem relDiff_scalar (m : Nat) (l r : V) (htag : realTypeOf l = realTypeOf r)
    (hno : (isObjV l && isObjV r) = false) :
    relDiff (m + 1) l r = if l = r then [] else [eRec [] l r] := by
  simp only [relDiff]
  rw [if_neg (fun h => h htag)]
  cases l <;> cases r <;> first | rfl | (simp [isObjV] at hno)

theorem child_fuel_bound (m : Nat) (lfs gs : List (String × V)) (k : String) (lv w : V)
    (hm : relDiffFuel (V.obj lfs) (V.obj gs) < m + 1) (hlm : (k, lv) ∈ lfs)
    (hw : lookupF gs k = some w) : relDiffFuel lv w < m := by
  have h1 : sizeV lv ≤ sizeF lfs := mem_sizeF lfs (k, lv) hlm
  have h2 : sizeV w ≤ sizeF gs := mem_sizeF gs (k, w) (lookup_mem gs k w hw)
  unfold relDiffFuel at *
  simp only [sizeV] at hm
  omega

theorem relDiff_nil_equiv : ∀ (fuel : Nat) (l r : V), relDiffFuel l r < fuel →
    plainB l = true → plainB r = true → relDiff fuel l r = [] → vequiv r l = true := by
  intro fuel
  induction fuel with
  | zero =>
    intro l r hs _ _ _
    have := sizeV_pos l
    have := sizeV_pos r
    unfold relDiffFuel at hs
    omega
  | succ m ih =>
    intro l r hs hl hr hnil
    simp only [relDiff] at hnil
    split at hnil
    · simp at hnil
    · rename_i htag
      rw [not_not] at htag
      revert hnil
      split
      · rename_i lfs gs
        intro hnil
        rw [List.append_eq_nil] at hnil
        have hfl := flatMap_nil_forall _ lfs hnil.1
        have hfn := flatMap_nil_forall _ gs hnil.2
        have hndl : nodupKeys lfs = true := plainB_obj_nodup lfs hl
        have hndg : nodupKeys gs = true := plainB_obj_nodup gs hr
        apply vequiv_obj_of
        · intro kv hkv
          have hno := hfn kv hkv
          by_cases hpn : (lookupF lfs kv.1).isNone = true
          · rw [if_pos hpn] at hno
            simp at hno
          · have hsome : (lookupF lfs kv.1).isSome = true := by
              cases h : lookupF lfs kv.1 with
              | none => rw [h] at hpn; simp at hpn
              | some w => rfl
            obtain ⟨v, hv⟩ := Option.isSome_iff_exists.mp hsome
            refine ⟨v, hv, ?_⟩
            have hvm : (kv.1, v) ∈ lfs := lookup_mem lfs kv.1 v hv
            have hgl := hfl (kv.1, v) hvm
            revert hgl
            split
            · rename_i w2 hw2
              intro hgl
              rw [List.map_eq_nil] at hgl
              have hw2kv : w2 = kv.2 := by
                have := lookup_self gs kv.1 kv.2 hndg (by rw [Prod.mk.eta]; exact hkv)
                rw [this] at hw2
                injection hw2 with h
                exact h.symm
              subst hw2kv
              exact ih v kv.2 (child_fuel_bound m lfs gs kv.1 v kv.2 hs hvm hw2)
                (plainB_obj_mem lfs (kv.1, v) hl hvm).1
                (plainB_obj_mem gs kv hr hkv).1 hgl
            · intro hgl
              simp at hgl
        · intro kv hkv
          have hgl := hfl kv hkv
          revert hgl
          split
          · rename_i w2 hw2
            intro _
            rw [hw2]
            rfl
          · intro hgl
            simp at hgl
      · rename_i hmno
        intro hnil
        split at hnil
        · rename_i heq
          subst heq
          exact vequiv_refl (sizeV l + 1) l (by omega) hl
        · simp at hnil

theorem revert_single_set (tfs2 : List (String × V)) (k : String) (v l2 r2 : V) (c : Change)
    (hc : c = dRec [k] v ∨ c = eRec [k] l2 r2 ∧ v = l2) :
    revertChange (V.obj tfs2) c = V.obj (setField tfs2 k v) := by
  rcases hc with hc | ⟨hc, hv⟩
  · subst hc
    unfold revertChange
    rw [if_pos (by simp [jsTruthy, dRec])]
    rfl
  · subst hc
    subst hv
    unfold revertChange
    rw [if_pos (by simp [jsTruthy, eRec])]
    rfl

theorem relDiff_roundtrip : ∀ (fuel : Nat) (lfs gs : List (String × V)),
    relDiffFuel (V.obj lfs) (V.obj gs) < fuel →
    plainB (V.obj lfs) = true → plainB (V.obj gs) = true →
    vequiv (revertList (relDiff fuel (V.obj lfs) (V.obj gs)) (V.obj gs)) (V.obj lfs) = true := by
  intro fuel
  induction fuel with
  | zero =>
    intro lfs gs hs _ _
    exfalso
    have := sizeV_pos (V.obj lfs)
    have := sizeV_pos (V.obj gs)
    unfold relDiffFuel at hs
    omega
  | succ m ih =>
    intro lfs gs hs hl hr
    have hndl := plainB_obj_nodup lfs hl
    have hndg := plainB_obj_nodup gs hr
    simp only [relDiff]
    rw [if_neg (by simp [realTypeOf] : ¬realTypeOf (V.obj lfs) ≠ realTypeOf (V.obj gs))]
    unfold revertList
    rw [List.foldr_append]
    obtain ⟨tfs1, h1, hnd1, hq1, hq2, hq3⟩ := revert_del_group gs lfs gs hndg
    rw [show List.foldr (fun c acc => revertChange acc c) (V.obj gs)
        (gs.flatMap fun kv => if (lookupF lfs kv.1).isNone = true
          then [nRec [kv.1] kv.2] else []) = V.obj tfs1 from h1]
    have hchild : ∀ kv ∈ lfs, ∀ tfs2 : List (String × V), nodupKeys tfs2 = true →
        lookupF tfs2 kv.1 = lookupF tfs1 kv.1 →
        ∃ tfs3, revertList ((fun kv => match lookupF gs kv.1 with
            | some w => (relDiff m kv.2 w).map (shiftChange [kv.1])
            | none => [dRec [kv.1] kv.2]) kv) (V.obj tfs2) = V.obj tfs3 ∧
          nodupKeys tfs3 = true ∧
          (∃ w, lookupF tfs3 kv.1 = some w ∧ vequiv w kv.2 = true) ∧
          (∀ k2, k2 ≠ kv.1 → lookupF tfs3 k2 = lookupF tfs2 k2) := by
      intro kv hkv tfs2 hnd2 hcur
      have hplain := plainB_obj_mem lfs kv hl hkv
      have hkey1 : lookupF tfs1 kv.1 = lookupF gs kv.1 := by
        apply hq1
        rw [lookup_self lfs kv.1 kv.2 hndl (by rw [Prod.mk.eta]; exact hkv)]
        rfl
      rw [hkey1] at hcur
      cases hgw : lookupF gs kv.1 with
      | none =>
        simp only [hgw]
        have hstep : revertList [dRec [kv.1] kv.2] (V.obj tfs2) =
            revertChange (V.obj tfs2) (dRec [kv.1] kv.2) := rfl
        rw [hstep, revert_single_set tfs2 kv.1 kv.2 V.undef V.undef _ (Or.inl rfl)]
        refine ⟨_, rfl, nodup_setField _ _ _ hnd2, ⟨kv.2, lookup_setField_self _ _ _, ?_⟩,
          fun k2 hne => lookup_setField_other _ _ _ _ hne⟩
        exact vequiv_refl (sizeV kv.2 + 1) kv.2 (by omega) hplain.1
      | some w =>
        rw [hgw] at hcur
        simp only [hgw]
        have hwm : (kv.1, w) ∈ gs := lookup_mem gs kv.1 w hgw
        have hwplain := plainB_obj_mem gs (kv.1, w) hr hwm
        have hfchild : relDiffFuel kv.2 w < m :=
          child_fuel_bound m lfs gs kv.1 kv.2 w hs (by rw [Prod.mk.eta]; exact hkv) hgw
        have hEcase : ∀ rest : List Change, relDiff m kv.2 w = eRec [] kv.2 w :: rest →
            rest = [] →
            ∃ tfs3, revertList ((relDiff m kv.2 w).map (shiftChange [kv.1])) (V.obj tfs2) =
              V.obj tfs3 ∧ nodupKeys tfs3 = true ∧
              (∃ w2, lookupF tfs3 kv.1 = some w2 ∧ vequiv w2 kv.2 = true) ∧
              (∀ k2, k2 ≠ kv.1 → lookupF tfs3 k2 = lookupF tfs2 k2) := by
          intro rest hrd hrest
          subst hrest
          rw [hrd]
          have hstep : revertList ([eRec [] kv.2 w].map (shiftChange [kv.1])) (V.obj tfs2) =
              revertChange (V.obj tfs2) (shiftChange [kv.1] (eRec [] kv.2 w)) := rfl
          rw [hstep]
          have hse : shiftChange [kv.1] (eRec [] kv.2 w) = eRec [kv.1] kv.2 w := rfl
          rw [hse, revert_single_set tfs2 kv.1 kv.2 kv.2 w _ (Or.inr ⟨rfl, rfl⟩)]
          refine ⟨_, rfl, nodup_setField _ _ _ hnd2, ⟨kv.2, lookup_setField_self _ _ _, ?_⟩,
            fun k2 hne => lookup_setField_other _ _ _ _ hne⟩
          exact vequiv_refl (sizeV kv.2 + 1) kv.2 (by omega) hplain.1
        by_cases hbo : ∃ l2 g2, kv.2 = V.obj l2 ∧ w = V.obj g2
        · obtain ⟨l2, g2, hl2, hg2⟩ := hbo
          have hcomp := revert_group_comp (relDiff m kv.2 w) tfs2 kv.1 g2
            (by rw [hcur, hg2]) ?shape
          case shape =>
            intro c hc
            rw [hl2, hg2] at hc
            refine ⟨relDiff_obj_path m l2 g2 c hc, ?_⟩
            rcases relDiff_kind m _ _ c hc with h | h | h <;> rw [h] <;> decide
          rw [hcomp]
          refine ⟨_, rfl, nodup_setField _ _ _ hnd2,
            ⟨revertList (relDiff m kv.2 w) (V.obj g2), lookup_setField_self _ _ _, ?_⟩,
            fun k2 hne => lookup_setField_other _ _ _ _ hne⟩
          rw [hl2] at hfchild hplain ⊢
          rw [hg2] at hfchild hwplain ⊢
          exact ih l2 g2 hfchild hplain.1 hwplain.1
        · cases m with
          | zero =>
            exfalso
            have := sizeV_pos kv.2
            have := sizeV_pos w
            unfold relDiffFuel at hfchild
            omega
          | succ m2 =>
            by_cases htag : realTypeOf kv.2 = realTypeOf w
            · have hsc := relDiff_scalar m2 kv.2 w htag (not_obj_pair kv.2 w hbo)
              by_cases heq : kv.2 = w
              · rw [if_pos heq] at hsc
                rw [hsc]
                refine ⟨tfs2, rfl, hnd2, ⟨w, hcur, ?_⟩, fun _ _ => rfl⟩
                rw [← heq]
                exact vequiv_refl (sizeV kv.2 + 1) kv.2 (by omega) hplain.1
              · rw [if_neg heq] at hsc
                exact hEcase [] hsc rfl
            · have hsc : relDiff (m2 + 1) kv.2 w = [eRec [] kv.2 w] := by
                simp only [relDiff]
                rw [if_pos htag]
              exact hEcase [] hsc rfl
    obtain ⟨tfsF, hF, hndF, hpF, hqF⟩ := revert_asm
      (fun kv => match lookupF gs kv.1 with
        | some w => (relDiff m kv.2 w).map (shiftChange [kv.1])
        | none => [dRec [kv.1] kv.2]) lfs tfs1 hndl hnd1 hchild
    rw [show List.foldr (fun c acc => revertChange acc c) (V.obj tfs1)
        (lfs.flatMap fun kv => match lookupF gs kv.1 with
          | some w => (relDiff m kv.2 w).map (shiftChange [kv.1])
          | none => [dRec [kv.1] kv.2]) = V.obj tfsF from hF]
    apply vequiv_obj_of
    · intro kv hkv
      by_cases hm : kv.1 ∈ lfs.map Prod.fst
      · obtain ⟨kv2, hkv2, hfst⟩ := List.mem_map.mp hm
        obtain ⟨w0, hw0, hvw0⟩ := hpF kv2 hkv2
        refine ⟨kv2.2, ?_, ?_⟩
        · rw [← hfst]
          exact lookup_self lfs kv2.1 kv2.2 hndl (by rw [Prod.mk.eta]; exact hkv2)
        · have hlkF : lookupF tfsF kv.1 = some kv.2 :=
            lookup_self tfsF kv.1 kv.2 hndF (by rw [Prod.mk.eta]; exact hkv)
          rw [← hfst] at hlkF
          rw [hlkF] at hw0
          injection hw0 with hw0
          rw [← hw0] at hvw0
          exact hvw0
      · exfalso
        have houtside : lookupF tfsF kv.1 = lookupF tfs1 kv.1 := hqF kv.1 hm
        have hnone : lookupF lfs kv.1 = none := lookup_none_of_not_mem lfs kv.1 hm
        have ht1 : lookupF tfs1 kv.1 = none := by
          by_cases hgm : kv.1 ∈ gs.map Prod.fst
          · exact hq3 kv.1 hgm (by rw [hnone]; rfl)
          · rw [hq2 kv.1 hgm]
            exact lookup_none_of_not_mem gs kv.1 hgm
        have hsome : lookupF tfsF kv.1 = some kv.2 :=
          lookup_self tfsF kv.1 kv.2 hndF (by rw [Prod.mk.eta]; exact hkv)
        rw [houtside, ht1] at hsome
        simp at hsome
    · intro kv hkv
      obtain ⟨w0, hw0, _⟩ := hpF kv hkv
      rw [hw0]
      rfl

/-- The state of the null-marked right key list after consuming the
keys of S: consumed entries are none, the rest keep their key. -/
def markedOf (S rkeys : List String) : List (Option String) :=
  rkeys.map (fun rk => if rk ∈ S then none else some rk)

theorem markedOf_nil (rkeys : List String) : markedOf [] rkeys = rkeys.map some := by
  unfold markedOf
  simp

theorem nodupKeys_map (fs : List (String × V)) (h : nodupKeys fs = true) :
    (fs.map Prod.fst).Nodup := by
  induction fs with
  | nil => simp
  | cons kv fs ih =>
    obtain ⟨k, v⟩ := kv
    simp only [nodupKeys, Bool.and_eq_true, List.all_eq_true] at h
    simp only [List.map_cons, List.nodup_cons]
    constructor
    · intro hm
      obtain ⟨kv2, hkv2, hfst⟩ := List.mem_map.mp hm
      have := h.1 kv2 hkv2
      simp only [decide_eq_true_eq] at this
      exact this hfst
    · exact ih h.2

theorem markedOf_congr (S1 S2 rkeys : List String) (h : ∀ x, x ∈ S1 ↔ x ∈ S2) :
    markedOf S1 rkeys = markedOf S2 rkeys := by
  unfold markedOf
  apply List.map_congr_left
  intro rk _
  by_cases hm : rk ∈ S1
  · rw [if_pos hm, if_pos ((h rk).mp hm)]
  · rw [if_neg hm, if_neg (fun h2 => hm ((h rk).mpr h2))]

theorem markedOf_findIdx_none (S : List String) (k : String) :
    ∀ rkeys : List String, k ∉ rkeys →
      (markedOf S rkeys).findIdx? (· == some k) = none := by
  intro rkeys
  induction rkeys with
  | nil => intro _; rfl
  | cons rk rkeys ih =>
    intro h
    simp only [List.mem_cons] at h
    push_neg at h
    unfold markedOf
    simp only [List.map_cons, List.findIdx?_cons]
    have hne : ((if rk ∈ S then none else some rk) == some k) = false := by
      by_cases hm : rk ∈ S
      · rw [if_pos hm]; rfl
      · rw [if_neg hm]
        simp
        exact fun he => h.1 he.symm
    rw [hne]
    simp only [Bool.false_eq_true, if_false]
    rw [List.findIdx?_succ]
    rw [show (rkeys.map fun rk => if rk ∈ S then none else some rk) = markedOf S rkeys from rfl]
    rw [ih h.2]
    rfl

theorem markedOf_findIdx_some (k : String) :
    ∀ (rkeys S : List String), rkeys.Nodup → k ∈ rkeys → k ∉ S →
      ∃ i, (markedOf S rkeys).findIdx? (· == some k) = some i ∧
        (markedOf S rkeys).set i none = markedOf (k :: S) rkeys := by
  intro rkeys
  induction rkeys with
  | nil => intro S _ h _; simp at h
  | cons rk rkeys ih =>
    intro S hnd hm hns
    simp only [List.nodup_cons] at hnd
    unfold markedOf
    simp only [List.map_cons, List.findIdx?_cons]
    rcases List.mem_cons.mp hm with hm | hm
    · subst hm
      rw [if_neg hns]
      simp only [show ((some k == some k) : Bool) = true from by simp, if_true]
      refine ⟨0, rfl, ?_⟩
      simp only [List.set_cons_zero]
      rw [if_pos (List.mem_cons_self k S)]
      have : (rkeys.map fun rk => if rk ∈ S then none else some rk) =
          (rkeys.map fun rk => if rk ∈ k :: S then none else some rk) := by
        apply List.map_congr_left
        intro rk2 hrk2
        have hne : rk2 ≠ k := fun he => hnd.1 (he ▸ hrk2)
        by_cases hm2 : rk2 ∈ S
        · rw [if_pos hm2, if_pos (List.mem_cons_of_mem _ hm2)]
        · rw [if_neg hm2, if_neg (by simp [hne, hm2])]
      rw [this]
    · have hne : rk ≠ k := fun he => hnd.1 (he ▸ hm)
      have hh : ((if rk ∈ S then none else some rk) == some k) = false := by
        by_cases hm2 : rk ∈ S
        · rw [if_pos hm2]; rfl
        · rw [if_neg hm2]
          simp
          exact hne
      rw [hh]
      simp only [Bool.false_eq_true, if_false]
      rw [List.findIdx?_succ]
      obtain ⟨i, hi, hset⟩ := ih S hnd.2 hm hns
      unfold markedOf at hi hset
      rw [hi]
      refine ⟨i + 1, rfl, ?_⟩
      simp only [List.set_cons_succ]
      rw [hset]
      congr 1
      by_cases hm2 : rk ∈ S
      · rw [if_pos hm2, if_pos (List.mem_cons_of_mem _ hm2)]
      · rw [if_neg hm2, if_neg (by simp [hne, hm2])]

theorem objLoop1_plain (rec : V → V → Option String → Option (List Change)) (lo ro : V)
    (gF gA : String → List Change) (rkeys : List String) (hrnd : rkeys.Nodup) :
    ∀ (lks S : List String), lks.Nodup → (∀ k ∈ lks, k ∉ S) →
      (∀ k ∈ lks, k ∈ rkeys → rec (jsGet lo k) (jsGet ro k) (some k) = some (gF k)) →
      (∀ k ∈ lks, k ∉ rkeys → rec (jsGet lo k) V.null (some k) = some (gA k)) →
      ∃ S2, objLoop1 rec lo ro lks (markedOf S rkeys) =
        some (lks.flatMap (fun k => if k ∈ rkeys then gF k else gA k), markedOf S2 rkeys) ∧
        (∀ x, x ∈ S2 ↔ (x ∈ S ∨ (x ∈ lks ∧ x ∈ rkeys))) := by
  intro lks
  induction lks with
  | nil =>
    intro S _ _ _ _
    refine ⟨S, by simp [objLoop1], fun x => ?_⟩
    simp
  | cons k lks ih =>
    intro S hnd hdisj hFr hAr
    simp only [List.nodup_cons] at hnd
    simp only [objLoop1]
    by_cases hkr : k ∈ rkeys
    · obtain ⟨i, hi, hset⟩ := markedOf_findIdx_some k rkeys S hrnd hkr
        (hdisj k (List.mem_cons_self _ _))
      rw [hi]
      simp only
      rw [hFr k (List.mem_cons_self _ _) hkr]
      simp only
      rw [hset]
      obtain ⟨S2, h2, hiff⟩ := ih (k :: S) hnd.2
        (fun k2 hk2 => by
          simp only [List.mem_cons]
          push_neg
          exact ⟨fun he => hnd.1 (he ▸ hk2), hdisj k2 (List.mem_cons_of_mem _ hk2)⟩)
        (fun k2 hk2 => hFr k2 (List.mem_cons_of_mem _ hk2))
        (fun k2 hk2 => hAr k2 (List.mem_cons_of_mem _ hk2))
      rw [h2]
      refine ⟨S2, ?_, ?_⟩
      · simp only [List.flatMap_cons, if_pos hkr]
      · intro x
        rw [hiff x]
        simp only [List.mem_cons]
        constructor
        · rintro ((h | h) | ⟨h1, h2⟩)
          · exact Or.inr ⟨Or.inl h, h ▸ hkr⟩
          · exact Or.inl h
          · exact Or.inr ⟨Or.inr h1, h2⟩
        · rintro (h | ⟨(h1 | h1), h2⟩)
          · exact Or.inl (Or.inr h)
          · exact Or.inl (Or.inl h1)
          · exact Or.inr ⟨h1, h2⟩
    · rw [markedOf_findIdx_none S k rkeys hkr]
      simp only
      rw [hAr k (List.mem_cons_self _ _) hkr]
      simp only
      obtain ⟨S2, h2, hiff⟩ := ih S hnd.2
        (fun k2 hk2 => hdisj k2 (List.mem_cons_of_mem _ hk2))
        (fun k2 hk2 => hFr k2 (List.mem_cons_of_mem _ hk2))
        (fun k2 hk2 => hAr k2 (List.mem_cons_of_mem _ hk2))
      rw [h2]
      refine ⟨S2, ?_, ?_⟩
      · simp only [List.flatMap_cons, if_neg hkr]
      · intro x
        rw [hiff x]
        simp only [List.mem_cons]
        constructor
        · rintro (h | ⟨h1, h2⟩)
          · exact Or.inl h
          · exact Or.inr ⟨Or.inr h1, h2⟩
        · rintro (h | ⟨(h1 | h1), h2⟩)
          · exact Or.inl h
          · exact absurd (h1 ▸ h2) hkr
          · exact Or.inr ⟨h1, h2⟩

theorem objLoop2_plain (rec : V → V → Option String → Option (List Change)) (ro : V)
    (g2 : String → List Change) :
    ∀ (rkeys S : List String),
      (∀ k ∈ rkeys, k ∉ S → k ≠ "" → rec V.null (jsGet ro k) (some k) = some (g2 k)) →
      objLoop2 rec ro (markedOf S rkeys) =
        some (rkeys.flatMap (fun k => if k ∈ S then [] else if k = "" then [] else g2 k)) := by
  intro rkeys
  induction rkeys with
  | nil => intro S _; rfl
  | cons rk rkeys ih =>
    intro S hrec
    unfold markedOf
    simp only [List.map_cons, List.flatMap_cons]
    by_cases hm : rk ∈ S
    · rw [if_pos hm]
      simp only [objLoop2]
      rw [show (rkeys.map fun rk => if rk ∈ S then none else some rk) = markedOf S rkeys from rfl]
      rw [ih S (fun k hk => hrec k (List.mem_cons_of_mem _ hk))]
      rw [if_pos hm]
      simp
    · rw [if_neg hm]
      simp only [objLoop2]
      by_cases he : rk = ""
      · rw [if_neg (by simp [he])]
        rw [show (rkeys.map fun rk => if rk ∈ S then none else some rk) = markedOf S rkeys from rfl]
        rw [ih S (fun k hk => hrec k (List.mem_cons_of_mem _ hk))]
        rw [if_neg hm, if_pos he]
        simp
      · rw [if_pos (by simp [he])]
        rw [hrec rk (List.mem_cons_self _ _) hm he]
        simp only
        rw [show (rkeys.map fun rk => if rk ∈ S then none else some rk) = markedOf S rkeys from rfl]
        rw [ih S (fun k hk => hrec k (List.mem_cons_of_mem _ hk))]
        rw [if_neg hm, if_neg he]

theorem plain_not_regexp (v : V) (h : plainB v = true) :
    decide (realTypeOf v = "regexp") = false := by
  cases v <;> simp_all [plainB, realTypeOf]

theorem cycleHit_of_sizes (stack : List StackT) (l : V)
    (h : ∀ f ∈ stack, sizeV l < sizeV f.lhs) : cycleHit stack l = false := by
  unfold cycleHit
  rw [List.any_eq_false]
  intro f hf
  intro hse
  have he := jsStrictEq_eq hse
  have hlt := h f hf
  rw [he] at hlt
  omega

theorem lastLhs_concat (stack : List StackT) (f : StackT) :
    lastLhs (stack ++ [f]) = f.lhs := by
  unfold lastLhs
  rw [List.getLast?_concat]

theorem lastRhs_concat (stack : List StackT) (f : StackT) :
    lastRhs (stack ++ [f]) = f.rhs := by
  unfold lastRhs
  rw [List.getLast?_concat]

theorem shift_shift (p q : List String) (c : Change) :
    shiftChange p (shiftChange q c) = shiftChange (p ++ q) c := by
  simp [shiftChange, List.append_assoc]

theorem jsGet_obj_self (fs : List (String × V)) (k : String) (v : V)
    (hnd : nodupKeys fs = true) (hm : (k, v) ∈ fs) : jsGet (V.obj fs) k = v := by
  simp [jsGet, lookup_self fs k v hnd hm]

theorem currentPathOf_key (path : List String) (k : String) (hk : k ≠ "") :
    currentPathOf path (some k) = path ++ [k] := by
  simp [currentPathOf, keyTruthyOf, hk]

/-- On the plain fragment the engine computes exactly the
characterization relDiff, with every record path shifted by the current
path: deepDiff and relDiff agree up to the path prefix. -/
theorem deepDiff_relDiff : ∀ (fuel : Nat) (l r : V) (path : List String) (key : Option String)
    (stack : List StackT),
    relDiffFuel l r < fuel →
    plainB l = true → plainB r = true →
    (∀ f ∈ stack, sizeV l < sizeV f.lhs) →
    definedCheck l (lastLhs stack) stack key = true →
    definedCheck r (lastRhs stack) stack key = true →
    (∀ k, key = some k → k ≠ "") →
    deepDiff fuel l r defaultOpts path key stack =
      some ((relDiff fuel l r).map (shiftChange (currentPathOf path key))) := by
  intro fuel
  induction fuel with
  | zero =>
    intro l r _ _ _ hs _ _ _ _
    exfalso
    have := sizeV_pos l
    have := sizeV_pos r
    unfold relDiffFuel at hs
    omega
  | succ m ih =>
    intro l r path key stack hs hl hr hstk hld hrd hkey
    by_cases hobb : ∃ lfs gs, l = V.obj lfs ∧ r = V.obj gs
    · obtain ⟨lfs, gs, hlo, hro⟩ := hobb
      subst hlo
      subst hro
      rw [deepDiff_objs_step m lfs gs path key stack
        (cycleHit_of_sizes stack (V.obj lfs) hstk)]
      have hndl := plainB_obj_nodup lfs hl
      have hndg := plainB_obj_nodup gs hr
      have hlksnd := nodupKeys_map lfs hndl
      have hrksnd := nodupKeys_map gs hndg
      have hm0 : m ≠ 0 := by
        unfold relDiffFuel at hs
        have := sizeV_pos (V.obj lfs)
        have := sizeV_pos (V.obj gs)
        omega
      have hF : ∀ k ∈ lfs.map Prod.fst, k ∈ gs.map Prod.fst →
          deepDiff m (jsGet (V.obj lfs) k) (jsGet (V.obj gs) k) defaultOpts
            (currentPathOf path key) (some k)
            (stack ++ [StackT.mk (V.obj lfs) (V.obj gs)]) =
          some ((relDiff m (jsGet (V.obj lfs) k) (jsGet (V.obj gs) k)).map
            (shiftChange (currentPathOf path key ++ [k]))) := by
        intro k hkm hkr
        obtain ⟨kvl, hkvl, hfstl⟩ := List.mem_map.mp hkm
        obtain ⟨kvr, hkvr, hfstr⟩ := List.mem_map.mp hkr
        have hplv := plainB_obj_mem lfs kvl hl hkvl
        have hprv := plainB_obj_mem gs kvr hr hkvr
        have hgl : jsGet (V.obj lfs) k = kvl.2 :=
          jsGet_obj_self lfs k kvl.2 hndl (by rw [← hfstl, Prod.mk.eta]; exact hkvl)
        have hgr : jsGet (V.obj gs) k = kvr.2 :=
          jsGet_obj_self gs k kvr.2 hndg (by rw [← hfstr, Prod.mk.eta]; exact hkvr)
        have hk : k ≠ "" := hfstl ▸ hplv.2
        have hcp2 : currentPathOf (currentPathOf path key) (some k) =
            currentPathOf path key ++ [k] := currentPathOf_key _ k hk
        rw [← hcp2]
        apply ih
        · rw [hgl, hgr]
          have h1 : sizeV kvl.2 ≤ sizeF lfs := mem_sizeF lfs kvl hkvl
          have h2 : sizeV kvr.2 ≤ sizeF gs := mem_sizeF gs kvr hkvr
          unfold relDiffFuel at *
          simp only [sizeV] at hs
          omega
        · rw [hgl]; exact hplv.1
        · rw [hgr]; exact hprv.1
        · intro f hf
          rcases List.mem_append.mp hf with hf | hf
          · have := hstk f hf
            have h1 : sizeV kvl.2 ≤ sizeF lfs := mem_sizeF lfs kvl hkvl
            rw [hgl]
            simp only [sizeV] at this
            omega
          · simp at hf
            rw [hf, hgl]
            simp only [sizeV]
            have h1 : sizeV kvl.2 ≤ sizeF lfs := mem_sizeF lfs kvl hkvl
            omega
        · rw [lastLhs_concat]
          unfold definedCheck
          have : hasOwnProp (V.obj lfs) k = true := by
            simp only [hasOwnProp]
            rw [lookup_self lfs k kvl.2 hndl (by rw [← hfstl, Prod.mk.eta]; exact hkvl)]
            rfl
          simp [this, jsTruthy]
        · rw [lastRhs_concat]
          unfold definedCheck
          have : hasOwnProp (V.obj gs) k = true := by
            simp only [hasOwnProp]
            rw [lookup_self gs k kvr.2 hndg (by rw [← hfstr, Prod.mk.eta]; exact hkvr)]
            rfl
          simp [this, jsTruthy]
        · intro k2 hk2
          injection hk2 with hk2
          exact hk2 ▸ hk
      have hA : ∀ k ∈ lfs.map Prod.fst, k ∉ gs.map Prod.fst →
          deepDiff m (jsGet (V.obj lfs) k) V.null defaultOpts
            (currentPathOf path key) (some k)
            (stack ++ [StackT.mk (V.obj lfs) (V.obj gs)]) =
          some [dRec (currentPathOf path key ++ [k]) (jsGet (V.obj lfs) k)] := by
        intro k hkm hkr
        obtain ⟨kvl, hkvl, hfstl⟩ := List.mem_map.mp hkm
        have hplv := plainB_obj_mem lfs kvl hl hkvl
        have hgl : jsGet (V.obj lfs) k = kvl.2 :=
          jsGet_obj_self lfs k kvl.2 hndl (by rw [← hfstl, Prod.mk.eta]; exact hkvl)
        have hk : k ≠ "" := hfstl ▸ hplv.2
        rw [hgl]
        apply deepDiff_left_only m kvl.2 (currentPathOf path key) k _ hm0 hk
        · rw [lastLhs_concat]
          unfold definedCheck
          have : hasOwnProp (V.obj lfs) k = true := by
            simp only [hasOwnProp]
            rw [lookup_self lfs k kvl.2 hndl (by rw [← hfstl, Prod.mk.eta]; exact hkvl)]
            rfl
          simp [this, jsTruthy]
        · rw [lastRhs_concat]
          unfold definedCheck
          have : hasOwnProp (V.obj gs) k = false := by
            simp only [hasOwnProp]
            rw [lookup_none_of_not_mem gs k hkr]
            rfl
          simp [this, jsTruthy]
      obtain ⟨S2, hL1, hS2⟩ := objLoop1_plain
        (fun l2 r2 key2 => deepDiff m l2 r2 defaultOpts (currentPathOf path key) key2
          (stack ++ [StackT.mk (V.obj lfs) (V.obj gs)]))
        (V.obj lfs) (V.obj gs)
        (fun k => (relDiff m (jsGet (V.obj lfs) k) (jsGet (V.obj gs) k)).map
          (shiftChange (currentPathOf path key ++ [k])))
        (fun k => [dRec (currentPathOf path key ++ [k]) (jsGet (V.obj lfs) k)])
        (gs.map Prod.fst) hrksnd (lfs.map Prod.fst) [] hlksnd (by simp) hF hA
      rw [markedOf_nil] at hL1
      rw [hL1]
      have hN : ∀ k ∈ gs.map Prod.fst, k ∉ S2 → k ≠ "" →
          deepDiff m V.null (jsGet (V.obj gs) k) defaultOpts
            (currentPathOf path key) (some k)
            (stack ++ [StackT.mk (V.obj lfs) (V.obj gs)]) =
          some [nRec (currentPathOf path key ++ [k]) (jsGet (V.obj gs) k)] := by
        intro k hkm hks hke
        obtain ⟨kvr, hkvr, hfstr⟩ := List.mem_map.mp hkm
        have hgr : jsGet (V.obj gs) k = kvr.2 :=
          jsGet_obj_self gs k kvr.2 hndg (by rw [← hfstr, Prod.mk.eta]; exact hkvr)
        have hknl : k ∉ lfs.map Prod.fst := by
          intro hmem
          exact hks ((hS2 k).mpr (Or.inr ⟨hmem, hkm⟩))
        rw [hgr]
        apply deepDiff_right_only m kvr.2 (currentPathOf path key) k _ hm0 hke
        · rw [lastLhs_concat]
          unfold definedCheck
          have : hasOwnProp (V.obj lfs) k = false := by
            simp only [hasOwnProp]
            rw [lookup_none_of_not_mem lfs k hknl]
            rfl
          simp [this, jsTruthy]
        · rw [lastRhs_concat]
          unfold definedCheck
          have : hasOwnProp (V.obj gs) k = true := by
            simp only [hasOwnProp]
            rw [lookup_self gs k kvr.2 hndg (by rw [← hfstr, Prod.mk.eta]; exact hkvr)]
            rfl
          simp [this, jsTruthy]
      have hL2 := objLoop2_plain
        (fun l2 r2 key2 => deepDiff m l2 r2 defaultOpts (currentPathOf path key) key2
          (stack ++ [StackT.mk (V.obj lfs) (V.obj gs)]))
        (V.obj gs)
        (fun k => [nRec (currentPathOf path key ++ [k]) (jsGet (V.obj gs) k)])
        (gs.map Prod.fst) S2 hN
      dsimp only
      rw [hL2]
      simp only [relDiff]
      rw [if_neg (by simp [realTypeOf] : ¬realTypeOf (V.obj lfs) ≠ realTypeOf (V.obj gs))]
      simp only [List.map_append]
      congr 1
      congr 1
      · rw [List.map_flatMap, List.flatMap_map]
        apply List.flatMap_congr
        intro kv hkv
        have hplv := plainB_obj_mem lfs kv hl hkv
        have hgl : jsGet (V.obj lfs) kv.1 = kv.2 :=
          jsGet_obj_self lfs kv.1 kv.2 hndl (by rw [Prod.mk.eta]; exact hkv)
        by_cases hkr : kv.1 ∈ gs.map Prod.fst
        · rw [if_pos hkr]
          obtain ⟨kvr, hkvr, hfstr⟩ := List.mem_map.mp hkr
          have hgsome : lookupF gs kv.1 = some kvr.2 :=
            lookup_self gs kv.1 kvr.2 hndg (by rw [← hfstr, Prod.mk.eta]; exact hkvr)
          rw [hgsome]
          have hgr : jsGet (V.obj gs) kv.1 = kvr.2 := by
            simp [jsGet, hgsome]
          rw [hgl, hgr]
          rw [List.map_map]
          apply List.map_congr_left
          intro c _
          show shiftChange (currentPathOf path key ++ [kv.1]) c
            = (shiftChange (currentPathOf path key) ∘ shiftChange [kv.1]) c
          simp only [Function.comp]
          rw [shift_shift]
        · rw [if_neg hkr]
          rw [lookup_none_of_not_mem gs kv.1 hkr]
          rw [hgl]
          simp [shiftChange, dRec]
      · rw [List.map_flatMap, List.flatMap_map]
        apply List.flatMap_congr
        intro kv hkv
        have hprv := plainB_obj_mem gs kv hr hkv
        have hgr : jsGet (V.obj gs) kv.1 = kv.2 :=
          jsGet_obj_self gs kv.1 kv.2 hndg (by rw [Prod.mk.eta]; exact hkv)
        have hin2 : kv.1 ∈ S2 ↔ kv.1 ∈ lfs.map Prod.fst := by
          rw [hS2 kv.1]
          simp only [List.not_mem_nil, false_or]
          constructor
          · exact fun h => h.1
          · exact fun h => ⟨h, List.mem_map.mpr ⟨kv, hkv, rfl⟩⟩
        by_cases hkl : kv.1 ∈ lfs.map Prod.fst
        · rw [if_pos (hin2.mpr hkl)]
          have : (lookupF lfs kv.1).isNone = false := by
            obtain ⟨kvl, hkvl, hfstl⟩ := List.mem_map.mp hkl
            rw [lookup_self lfs kv.1 kvl.2 hndl (by rw [← hfstl, Prod.mk.eta]; exact hkvl)]
            rfl
          rw [this]
          simp
        · rw [if_neg (fun h => hkl (hin2.mp h)), if_neg (hprv.2)]
          have : (lookupF lfs kv.1).isNone = true := by
            rw [lookup_none_of_not_mem lfs kv.1 hkl]
            rfl
          rw [this]
          rw [hgr]
          simp [shiftChange, nRec]
    · have hpf : (keyTruthyOf key && prefilterHitOf defaultOpts path key) = false := by
        simp [prefilterHitOf, defaultOpts]
      simp only [deepDiff]
      rw [hpf]
      simp only [Bool.false_eq_true, if_false]
      have hbr : (decide (realTypeOf l = "regexp") && decide (realTypeOf r = "regexp")) = false := by
        rw [plain_not_regexp l hl]
        rfl
      rw [hbr]
      simp only [Bool.false_eq_true, if_false]
      rw [hld, hrd]
      simp only [Bool.not_true, Bool.false_and, Bool.and_false, Bool.false_eq_true, if_false,
        Bool.and_true, Bool.true_and]
      by_cases htag : realTypeOf l = realTypeOf r
      · rw [if_neg (not_not_intro htag)]
        simp only [relDiff]
        rw [if_neg (not_not_intro htag)]
        cases l <;> cases r <;>
          first
          | (simp [plainB] at hl; done)
          | (simp [plainB] at hr; done)
          | (simp [realTypeOf] at htag; done)
          | skip
        · simp [realTypeOf, jsTruthy, jsStrictEq, isNaNV]
        · simp [realTypeOf, jsTruthy, jsStrictEq, isNaNV]
        · rename_i a b
          by_cases hab : a = b
          · subst hab
            simp [realTypeOf, jsTruthy, jsTypeof, jsStrictEq, isNaNV]
          · simp [realTypeOf, jsTruthy, jsTypeof, jsStrictEq, isNaNV, hab, eRec, shiftChange]
        · rename_i a b
          by_cases hab : a = b
          · subst hab
            simp [realTypeOf, jsTruthy, jsTypeof, jsStrictEq, isNaNV]
          · simp [realTypeOf, jsTruthy, jsTypeof, jsStrictEq, isNaNV, hab, eRec, shiftChange]
        · simp [realTypeOf, jsTruthy, jsTypeof, jsStrictEq, isNaNV]
        · rename_i a b
          by_cases hab : a = b
          · subst hab
            simp [realTypeOf, jsTruthy, jsTypeof, jsStrictEq, isNaNV]
          · simp [realTypeOf, jsTruthy, jsTypeof, jsStrictEq, isNaNV, hab, eRec, shiftChange]
        · rename_i a b
          by_cases hab : a = b
          · subst hab
            have hcyc := cycleHit_of_sizes stack (V.date a) hstk
            simp [realTypeOf, jsTruthy, jsTypeof, hcyc, keysOf, objLoop1, objLoop2]
          · simp [realTypeOf, jsTruthy, jsTypeof, jsStrictEq, isNaNV, hab, eRec, shiftChange]
        · exact absurd ⟨_, _, rfl, rfl⟩ hobb
      · rw [if_pos htag]
        simp only [relDiff]
        rw [if_pos htag]
        simp [eRec, shiftChange]

/-- Whenever the strict-mode write succeeds it computes exactly the
total write jsSet. -/
theorem jsSetE_eq (t : V) (k : String) (x w : V) (h : jsSetE t k x = some w) :
    w = jsSet t k x := by
  cases t <;> simp [jsSetE, jsSet] at h ⊢ <;> exact h.symm

/-- Whenever the strict-mode delete succeeds it computes exactly the
total delete jsDelete. -/
theorem jsDeleteE_eq (t : V) (k : String) (w : V) (h : jsDeleteE t k = some w) :
    w = jsDelete t k := by
  cases t <;> simp [jsDeleteE, jsDelete] at h ⊢ <;>
    first
    | exact h.symm
    | exact h.2.symm

/-- Claim C1, counterexample: at a primitive root the revert engine
cannot reproduce the left value.  diff 1 2 emits a single root Edited
record with an empty path; reverting it runs in the strict mode of the
ES module and executes the write of property undefined on the
non-object target 2, which throws a TypeError, so the revert aborts
with the error and never produces 1. -/
theorem diff_revert_root_counterexample :
    diffRun (V.num 1) (V.num 2) defaultOpts = some [eRec [] (V.num 1) (V.num 2)] ∧
    revertListE [eRec [] (V.num 1) (V.num 2)] (V.num 2) = none :=
  ⟨rfl, rfl⟩

/-- Claim C1, amended to the fragment on which it holds: for plain
object trees (acyclic by construction, with no arrays, no regexps and
no empty or duplicate keys) the diff of left against right succeeds,
and reverting every emitted record in reverse emission order against
right reproduces left up to object key order. -/
theorem diff_revert_roundtrip_plain (lfs gs : List (String × V))
    (hl : plainB (V.obj lfs) = true) (hr : plainB (V.obj gs) = true) :
    ∃ cs, diffRun (V.obj lfs) (V.obj gs) defaultOpts = some cs ∧
      vequiv (revertList cs (V.obj gs)) (V.obj lfs) = true := by
  refine ⟨relDiff (diffFuel (V.obj lfs) (V.obj gs)) (V.obj lfs) (V.obj gs), ?_, ?_⟩
  · have h := deepDiff_relDiff (diffFuel (V.obj lfs) (V.obj gs)) (V.obj lfs) (V.obj gs)
      [] none []
      (by unfold diffFuel relDiffFuel; omega) hl hr
      (fun f hf => absurd hf (List.not_mem_nil f))
      (definedCheck_obj lfs _ _ _) (definedCheck_obj gs _ _ _)
      (fun k hk => Option.noConfusion hk)
    unfold diffRun
    rw [h]
    have hsid : shiftChange (currentPathOf [] none) = id := funext fun c => rfl
    rw [hsid, List.map_id]
  · exact relDiff_roundtrip (diffFuel (V.obj lfs) (V.obj gs)) lfs gs
      (by unfold diffFuel relDiffFuel; omega) hl hr

/-- Witness for diff_revert_roundtrip_plain at a concrete pair of plain
objects with an edited field, a deleted subtree and a new field. -/
theorem diff_revert_roundtrip_plain_witness :
    plainB (V.obj [("a", V.num 1), ("b", V.obj [("c", V.str "x")])]) = true ∧
    plainB (V.obj [("a", V.num 2), ("d", V.boolV true)]) = true ∧
    (∃ cs, diffRun (V.obj [("a", V.num 1), ("b", V.obj [("c", V.str "x")])])
        (V.obj [("a", V.num 2), ("d", V.boolV true)]) defaultOpts = some cs ∧
      vequiv (revertList cs (V.obj [("a", V.num 2), ("d", V.boolV true)]))
        (V.obj [("a", V.num 1), ("b", V.obj [("c", V.str "x")])]) = true) :=
  ⟨by decide, by decide,
    diff_revert_roundtrip_plain _ _ (by decide) (by decide)⟩
